import Mathlib

/-!
Verification of the `mongoose-rest` repository (`lib/rest.js`, `lib/backbone.js`,
`index.js`) against its natural-language specification.

The JavaScript modules are shallowly embedded:

* JavaScript values that flow through the handlers (documents, errors,
  request bodies) are modelled by the inductive `JVal`; objects are
  insertion-ordered association lists (JavaScript objects have unique keys;
  theorems that depend on uniqueness assume `Nodup` keys explicitly).
* The model registry (`lib/models.js` is not part of the sources; rest.js and
  backbone.js consume it only through the accessors `getTopLevel`,
  `getEmbedded`, `getChildren`, `hasChildren`) is represented abstractly by
  the structure `Registry` holding exactly the data those accessors return.
* The `lingo` inflection library is external; `singularize` / `pluralize` are
  universally quantified function parameters `sing`, `plur`.
* Route handlers are pure functions from a `Request` and a `World` (the
  responses the ORM gives to the `run`/`save`/`remove` calls the handler
  issues) to the list of ORM calls made plus the final `Outcome`
  (`next(err)`, `response.send`, `response.render`, flash + redirect).

Definitions keep the source names wherever Lean allows.
-/

set_option autoImplicit false

namespace MongooseRest

/-! ## JavaScript values -/

/-- A JavaScript value as it appears in request bodies, documents and errors:
a scalar (`prim`, carrying its string rendering), an `Error` object with a
message (`jerr`), an array, or a plain object.  Objects are modelled as
insertion-ordered association lists; JavaScript objects cannot contain a key
twice, so theorems needing uniqueness assume `Nodup` on the keys. -/
inductive JVal where
  | prim : String → JVal
  | jerr : String → JVal
  | arr : List JVal → JVal
  | obj : List (String × JVal) → JVal
deriving Repr

/-- The fields of a JavaScript object. -/
abbrev Fields := List (String × JVal)

mutual

/-- Decidable equality for `JVal` (needed because `JVal` nests lists). -/
def JVal.beq : JVal → JVal → Bool
  | .prim a, .prim b => a == b
  | .jerr a, .jerr b => a == b
  | .arr a, .arr b => JVal.beqList a b
  | .obj a, .obj b => JVal.beqFields a b
  | _, _ => false

/-- Pointwise `JVal.beq` on lists. -/
def JVal.beqList : List JVal → List JVal → Bool
  | [], [] => true
  | a :: as', b :: bs' => JVal.beq a b && JVal.beqList as' bs'
  | _, _ => false

/-- Pointwise `JVal.beq` on fields. -/
def JVal.beqFields : Fields → Fields → Bool
  | [], [] => true
  | (k, a) :: as', (l, b) :: bs' => k == l && JVal.beq a b && JVal.beqFields as' bs'
  | _, _ => false

end

mutual

theorem JVal.beq_refl : ∀ v : JVal, JVal.beq v v = true
  | .prim a => by simp [JVal.beq]
  | .jerr a => by simp [JVal.beq]
  | .arr a => by simp [JVal.beq, JVal.beqList_refl a]
  | .obj a => by simp [JVal.beq, JVal.beqFields_refl a]

theorem JVal.beqList_refl : ∀ l : List JVal, JVal.beqList l l = true
  | [] => rfl
  | a :: as' => by simp [JVal.beqList, JVal.beq_refl a, JVal.beqList_refl as']

theorem JVal.beqFields_refl : ∀ l : Fields, JVal.beqFields l l = true
  | [] => rfl
  | (k, a) :: as' => by
      simp [JVal.beqFields, JVal.beq_refl a, JVal.beqFields_refl as']

end

mutual

theorem JVal.eq_of_beq : ∀ {a b : JVal}, JVal.beq a b = true → a = b
  | .prim a, .prim b, h => by simpa [JVal.beq] using h
  | .prim _, .jerr _, h => by simp [JVal.beq] at h
  | .prim _, .arr _, h => by simp [JVal.beq] at h
  | .prim _, .obj _, h => by simp [JVal.beq] at h
  | .jerr _, .prim _, h => by simp [JVal.beq] at h
  | .jerr a, .jerr b, h => by simpa [JVal.beq] using h
  | .jerr _, .arr _, h => by simp [JVal.beq] at h
  | .jerr _, .obj _, h => by simp [JVal.beq] at h
  | .arr _, .prim _, h => by simp [JVal.beq] at h
  | .arr _, .jerr _, h => by simp [JVal.beq] at h
  | .arr a, .arr b, h => by
      simp only [JVal.beq] at h
      exact congrArg JVal.arr (JVal.eqList_of_beq h)
  | .arr _, .obj _, h => by simp [JVal.beq] at h
  | .obj _, .prim _, h => by simp [JVal.beq] at h
  | .obj _, .jerr _, h => by simp [JVal.beq] at h
  | .obj _, .arr _, h => by simp [JVal.beq] at h
  | .obj a, .obj b, h => by
      simp only [JVal.beq] at h
      exact congrArg JVal.obj (JVal.eqFields_of_beq h)

theorem JVal.eqList_of_beq : ∀ {a b : List JVal}, JVal.beqList a b = true → a = b
  | [], [], _ => rfl
  | [], _ :: _, h => by simp [JVal.beqList] at h
  | _ :: _, [], h => by simp [JVal.beqList] at h
  | a :: as', b :: bs', h => by
      simp only [JVal.beqList, Bool.and_eq_true] at h
      exact congrArg₂ List.cons (JVal.eq_of_beq h.1) (JVal.eqList_of_beq h.2)

theorem JVal.eqFields_of_beq : ∀ {a b : Fields}, JVal.beqFields a b = true → a = b
  | [], [], _ => rfl
  | [], _ :: _, h => by simp [JVal.beqFields] at h
  | _ :: _, [], h => by simp [JVal.beqFields] at h
  | (k, a) :: as', (l, b) :: bs', h => by
      simp only [JVal.beqFields, Bool.and_eq_true] at h
      obtain ⟨⟨hk, hv⟩, ht⟩ := h
      have : (k, a) = (l, b) := by
        rw [show k = l from by simpa using hk, JVal.eq_of_beq hv]
      exact congrArg₂ List.cons this (JVal.eqFields_of_beq ht)

end

instance : DecidableEq JVal := fun a b =>
  if h : JVal.beq a b = true then .isTrue (JVal.eq_of_beq h)
  else .isFalse (fun he => h (he ▸ JVal.beq_refl a))

/-! ## Object field helpers (JavaScript object primitives) -/

/-- Value of the first field named `k` (JavaScript property read `o[k]`). -/
def lookupVal (fs : Fields) (k : String) : Option JVal :=
  match fs with
  | [] => none
  | (k', v) :: rest => if k' == k then some v else lookupVal rest k

/-- Whether the object has a field named `k` (JavaScript `k in o`). -/
def hasKey (fs : Fields) (k : String) : Bool :=
  match fs with
  | [] => false
  | (k', _) :: rest => k' == k || hasKey rest k

/-- Remove the first field named `k` (JavaScript `delete o[k]`). -/
def eraseKey (fs : Fields) (k : String) : Fields :=
  match fs with
  | [] => []
  | (k', v) :: rest => if k' == k then rest else (k', v) :: eraseKey rest k

/-- JavaScript property write `o[k] = v`: overwrite in place when the key
exists, otherwise append the new property at the end (insertion order). -/
def setKeyJs (fs : Fields) (k : String) (v : JVal) : Fields :=
  if hasKey fs k then
    fs.map (fun p => if p.1 == k then (k, v) else p)
  else fs ++ [(k, v)]

/-- Does key `target` occur strictly before key `stop` in the field list?
Used to replay the `for...in` visiting order of `convertUnderscoreId`. -/
def keyBefore (target stop : String) (fs : Fields) : Bool :=
  match fs with
  | [] => false
  | (k, _) :: rest =>
      if k == stop then false
      else if k == target then true
      else keyBefore target stop rest

mutual

/-- JavaScript `String(v)` as used by `new Error(err)`: scalars render as
themselves, `Error` objects as `Error: <message>`, arrays join their
elements with commas, plain objects render as `[object Object]`. -/
def jsToString : JVal → String
  | .prim s => s
  | .jerr m => "Error: " ++ m
  | .arr xs => jsToStringList xs
  | .obj _ => "[object Object]"

/-- Comma-joined rendering of array elements, part of `jsToString`. -/
def jsToStringList : List JVal → String
  | [] => ""
  | [x] => jsToString x
  | x :: xs => jsToString x ++ "," ++ jsToStringList xs

end

/-- JavaScript `new Error(err)`: an `Error` object whose message is the
stringification of the argument.  Every ORM error the route handlers report
to `next` goes through this wrapper (rest.js `next(new Error(err))`). -/
def jsNewError (v : JVal) : JVal := .jerr (jsToString v)

/-! ## convertUnderscoreId (backbone.js lines 37-52)

The JavaScript function mutates an object in place:

    for (var attr in instance)
        if (attr == underscore-id) move the value to `id` and delete it;
        else if the value is an array, convert its object-typed elements;
        else if the value is object-typed, convert it recursively.

The pure embedding replays the loop over the snapshot of the keys present
when the loop starts (properties added during enumeration — the `id`
property created by the `_id` branch — are not visited, matching V8).
Consequences of the in-place semantics, reflected below:

* no `_id` key: every value is converted in place (`convAllFields`);
* `_id` present and an `id` key occurs *before* `_id`: the `id` field is
  visited (and its old value converted) before the `_id` branch overwrites
  it, so `id` ends up holding the *raw* `_id` value (`convFieldsSet` with
  the raw value);
* `_id` present and an `id` key occurs *after* `_id`: the `_id` branch
  overwrites `id` first, and the later visit of `id` converts the moved
  value (`convFieldsSet` with the converted value);
* `_id` present and no `id` key: `id` is appended at the end with the raw
  `_id` value and never visited.

In all cases the `_id` value itself is only *moved*, never descended into
by the `_id` branch.  Arrays recurse through `convChildren`; the JavaScript
`typeof child` guard skips scalars, which `convertUnderscoreId` leaves
unchanged anyway, so the guard is extensionally the identity and the
embedding applies the conversion to every element. -/

/-- Erasing a key never increases the size of the field list. -/
theorem sizeOf_eraseKey_le : ∀ (fs : Fields) (k : String),
    sizeOf (eraseKey fs k) ≤ sizeOf fs
  | [], _ => le_refl _
  | (k', v) :: rest, k => by
      simp only [eraseKey]
      split
      · simp only [List.cons.sizeOf_spec]
        omega
      · simp only [List.cons.sizeOf_spec]
        have := sizeOf_eraseKey_le rest k
        omega

/-- A value found in a field list is strictly smaller than the list. -/
theorem sizeOf_lookupVal : ∀ (fs : Fields) (k : String) (v : JVal),
    lookupVal fs k = some v → sizeOf v < sizeOf fs
  | [], _, _, h => by simp [lookupVal] at h
  | (k', w) :: rest, k, v, h => by
      simp only [lookupVal] at h
      split at h
      · cases h
        simp only [List.cons.sizeOf_spec, Prod.mk.sizeOf_spec]
        omega
      · have := sizeOf_lookupVal rest k v h
        simp only [List.cons.sizeOf_spec]
        omega

/-- Decreasing-measure fact: erasing a key keeps the doubled size below the
successor measure. -/
theorem dec_measure_erase (fs : Fields) (k : String) :
    2 * sizeOf (eraseKey fs k) < 2 * sizeOf fs + 1 := by
  have h := sizeOf_eraseKey_le fs k
  omega

/-- Decreasing-measure fact: a looked-up value is below the successor
measure of its field list. -/
theorem dec_measure_lookup (fs : Fields) (k : String) (v : JVal)
    (h : lookupVal fs k = some v) :
    2 * sizeOf v < 2 * sizeOf fs + 1 := by
  have hs := sizeOf_lookupVal fs k v h
  omega

mutual

/-- Effect of `convertUnderscoreId` on a JavaScript value.  Scalars are left
unchanged (the function is only ever called on object-typed values); arrays
convert their elements; objects convert their field list. -/
def convertUnderscoreId : JVal → JVal
  | .prim s => .prim s
  | .jerr m => .jerr m
  | .arr xs => .arr (convChildren xs)
  | .obj fs => .obj (convertFields fs)
termination_by v => 2 * sizeOf v

/-- Conversion of the elements of an array (`forEach` with the object-type
guard, which is the identity on scalars). -/
def convChildren : List JVal → List JVal
  | [] => []
  | c :: cs => convertUnderscoreId c :: convChildren cs
termination_by xs => 2 * sizeOf xs

/-- Conversion of every field value in place (the loop when no `_id` key is
present, and the recursive conversion applied to non-`_id` attributes). -/
def convAllFields : Fields → Fields
  | [] => []
  | (k, v) :: rest => (k, convertUnderscoreId v) :: convAllFields rest
termination_by fs => 2 * sizeOf fs

/-- Conversion of every field value in place except that the field named
`id` receives the precomputed value `u` (the value moved over from `_id`,
raw or already converted depending on the visiting order). -/
def convFieldsSet (u : JVal) : Fields → Fields
  | [] => []
  | (k, v) :: rest =>
      (if k == "id" then (k, u) else (k, convertUnderscoreId v)) :: convFieldsSet u rest
termination_by fs => 2 * sizeOf fs

/-- Effect of the `convertUnderscoreId` loop on an object's field list; see
the case analysis in the section comment above. -/
def convertFields (fs : Fields) : Fields :=
  match h : lookupVal fs "_id" with
  | none => convAllFields fs
  | some v =>
      if keyBefore "id" "_id" fs then
        convFieldsSet v (eraseKey fs "_id")
      else if hasKey fs "id" then
        convFieldsSet (convertUnderscoreId v) (eraseKey fs "_id")
      else
        convAllFields (eraseKey fs "_id") ++ [("id", v)]
termination_by 2 * sizeOf fs + 1
decreasing_by
  all_goals simp_wf
  all_goals
    first
      | omega
      | exact dec_measure_erase fs "_id"
      | exact dec_measure_lookup fs "_id" v h

end

/-- Unfolding of `convertFields` when no `_id` key is present. -/
theorem convertFields_none (fs : Fields) (hl : lookupVal fs "_id" = none) :
    convertFields fs = convAllFields fs := by
  simp only [convertFields]
  split
  · rfl
  · rename_i v heq
    rw [hl] at heq
    cases heq

/-- Unfolding of `convertFields` when `_id` is present and an `id` key
occurs before it. -/
theorem convertFields_some_before (fs : Fields) (v : JVal)
    (hl : lookupVal fs "_id" = some v) (hb : keyBefore "id" "_id" fs = true) :
    convertFields fs = convFieldsSet v (eraseKey fs "_id") := by
  simp only [convertFields]
  split
  · rename_i heq
    rw [hl] at heq
    cases heq
  · rename_i w heq
    rw [hl] at heq
    injection heq with heq
    subst heq
    rw [if_pos hb]

/-- Unfolding of `convertFields` when `_id` is present and an `id` key
occurs after it. -/
theorem convertFields_some_after (fs : Fields) (v : JVal)
    (hl : lookupVal fs "_id" = some v) (hb : keyBefore "id" "_id" fs = false)
    (hk : hasKey fs "id" = true) :
    convertFields fs = convFieldsSet (convertUnderscoreId v) (eraseKey fs "_id") := by
  simp only [convertFields]
  split
  · rename_i heq
    rw [hl] at heq
    cases heq
  · rename_i w heq
    rw [hl] at heq
    injection heq with heq
    subst heq
    rw [if_neg (by simp [hb]), if_pos hk]

/-- Unfolding of `convertFields` when `_id` is present and no `id` key
exists: `id` is appended at the end with the raw `_id` value. -/
theorem convertFields_some_append (fs : Fields) (v : JVal)
    (hl : lookupVal fs "_id" = some v) (hb : keyBefore "id" "_id" fs = false)
    (hk : hasKey fs "id" = false) :
    convertFields fs = convAllFields (eraseKey fs "_id") ++ [("id", v)] := by
  simp only [convertFields]
  split
  · rename_i heq
    rw [hl] at heq
    cases heq
  · rename_i w heq
    rw [hl] at heq
    injection heq with heq
    subst heq
    rw [if_neg (by simp [hb]), if_neg (by simp [hk])]

/-! ## classify (backbone.js lines 24-28)

    function classify (str) \x7b
        return str.replace(..underscore.., ' ').replace(/(^| )[a-z]/g, ..toUpperCase..).replace(' ', '');
    \x7d

JavaScript `String.prototype.replace` with a *string* pattern replaces only
the **first** occurrence, so only the first underscore becomes a space and
only the first space is removed afterwards.  The global regex uppercases
every ASCII lowercase letter standing at the start of the string or right
after a space (the regex consumes the space and the letter and uppercases
the match, which leaves the space itself unchanged). -/

/-- Replace the first `'_'` by `' '` (JavaScript `str.replace(c, d)` with a
string pattern replaces only the first occurrence). -/
def replaceFirstUnderscore : List Char → List Char
  | [] => []
  | c :: cs => if c == '_' then ' ' :: cs else c :: replaceFirstUnderscore cs

/-- Is `c` an ASCII lowercase letter (`[a-z]` in the regex)? -/
def isLowerAZ (c : Char) : Bool := 'a' ≤ c && c ≤ 'z'

/-- Uppercase every `[a-z]` at the start or right after a space: the effect
of `.replace(/(^| )[a-z]/g, m => m.toUpperCase())`.  The flag records
whether the previous character was a boundary (start of string or space). -/
def upBoundaries (boundary : Bool) : List Char → List Char
  | [] => []
  | c :: cs =>
      (if boundary && isLowerAZ c then c.toUpper else c) :: upBoundaries (c == ' ') cs

/-- Remove the first `' '` (JavaScript `.replace(' ', '')`). -/
def removeFirstSpace : List Char → List Char
  | [] => []
  | c :: cs => if c == ' ' then cs else c :: removeFirstSpace cs

/-- backbone.js `classify`: convert a lowercase, underscored string to a
proper-cased class name, e.g. `my_table` to `MyTable`.  Faithful to the
first-occurrence-only semantics of the two string-pattern `replace` calls. -/
def classify (s : String) : String :=
  ⟨removeFirstSpace (upBoundaries true (replaceFirstUnderscore s.data))⟩

/-- Capitalisation of a single word as the specification describes it:
uppercase the first character, keep the rest. -/
def capitalizeWord : List Char → List Char
  | [] => []
  | c :: cs => c.toUpper :: cs

/-! ## The model registry

Modelled from the spec: the registry module `lib/models.js` is not among the
sources; `rest.js` and `backbone.js` only consume it through the accessors
`models.getTopLevel()`, `models.getEmbedded()`, `models.getChildren(resource)`
and `models.hasChildren(resource)`, which introspect the set of declared data
models with their parent/child embedded relationships.  The structure below
holds exactly the data those accessors return; route creation and code
generation are verified for an arbitrary registry. -/

/-- One embedded (child) relationship as `models.getChildren` returns it:
the child resource name, the attribute of the parent document that stores
the children, and the precomputed plural/singular names. -/
structure Embedded where
  resource : String
  attrib : String
  plural : String
  singular : String
deriving DecidableEq, Repr

/-- Modelled from the spec: the abstract interface of the model registry
(`lib/models.js`, not among the sources) — top-level model names, embedded
model names, and the children of each top-level model. -/
structure Registry where
  topLevel : List String
  embedded : List String
  children : String → List Embedded

/-- Modelled from the spec: `models.hasChildren(resource)` — whether the
resource has embedded children. -/
def Registry.hasChildren (reg : Registry) (res : String) : Bool :=
  !(reg.children res).isEmpty

/-! ## Backbone code generation (backbone.js lines 62-193) -/

/-- backbone.js `backboneCommon`: the common template emitted once at the
start of the generated source (lines 119-141), verbatim. -/
def backboneCommon (ns : String) : String :=
  "var " ++ ns ++ "Model = Backbone.Model.extend(\x7b\n"
  ++ "    set: function (attributes, options) \x7b\n"
  ++ "        Backbone.Model.prototype.set.call(this, attributes, options);\n"
  ++ "        this.pullEmbedded();\n"
  ++ "    \x7d\n"
  ++ "  , pullEmbedded: function () \x7b\n"
  ++ "        for (var attr in this.attributes) \x7b\n"
  ++ "            if (this[attr] && this[attr] instanceof Backbone.Collection) \x7b\n"
  ++ "                for (var i = 0, models = [], model = this[attr].model, l = this.attributes[attr].length; i < l; i++) \x7b\n"
  ++ "                    models.push(new model(this.attributes[attr][i]));\n"
  ++ "                \x7d\n"
  ++ "                this[attr].reset(models);\n"
  ++ "                delete this.attributes[attr];\n"
  ++ "            \x7d\n"
  ++ "        \x7d\n"
  ++ "    \x7d\n"
  ++ "\x7d);\n"
  ++ "\n\n"
  ++ "var " ++ ns ++ "Collection = Backbone.Collection.extend(\x7b\x7d);\n\n"

/-- backbone.js `backboneEmbeddedModel` (lines 150-156): the model/collection
snippet for one embedded model.  The class name is the namespace prepended to
`classify(lingo.singularize(resource))`. -/
def backboneEmbeddedModel (ns : String) (sing : String → String)
    (resource : String) : String :=
  let singular := ns ++ classify (sing resource)
  "var " ++ singular ++ " = " ++ ns ++ "Model.extend(\x7b\x7d)\n"
  ++ "  , " ++ singular ++ "Collection = "
  ++ ns ++ "Collection.extend(\x7b model: " ++ singular ++ " \x7d);\n\n"

/-- backbone.js `backboneTopLevelModel` (lines 165-193): the model/collection
snippet for one top-level model, including the `initialize` block wiring one
embedded collection per child when the resource has children. -/
def backboneTopLevelModel (ns : String) (reg : Registry)
    (sing plur : String → String) (resource : String) : String :=
  let singular := ns ++ classify (sing resource)
  let plural := plur resource
  let base := "var " ++ singular ++ " = Model.extend(\x7b\n"
    ++ "    urlRoot: \x27/" ++ plural ++ "\x27\n"
  let withInit :=
    if reg.hasChildren resource then
      (reg.children resource).foldl
        (fun acc em =>
          acc ++ "        this." ++ em.attrib ++ " = new "
              ++ ns ++ classify em.singular ++ "Collection;\n"
              ++ "        this." ++ em.attrib ++ ".url = \x27/" ++ plural
              ++ "/\x27 + this.id + \x27/" ++ em.plural ++ "\x27\n")
        (base ++ "  , initialize: function () \x7b\n")
      ++ "        this.pullEmbedded();\n"
      ++ "    \x7d\n"
    else base
  withInit ++ "\x7d);\n\n"
  ++ "var " ++ singular ++ "Collection = Collection.extend(\x7b\n"
  ++ "    model: " ++ singular ++ "\n"
  ++ "  , url: \x27/" ++ plural ++ "\x27\n"
  ++ "\x7d);\n\n"

/-- backbone.js `exports.generate` (lines 62-98): the returned string, built
by appending one snippet per embedded model and then one per top-level model
to the common template.  (The function also registers the `backbone` view
helper on the app — a side effect that does not contribute to the returned
string; the helper's `convertUnderscoreId` call is verified separately.) -/
def generate (reg : Registry) (ns : String)
    (sing plur : String → String) : String :=
  let b := backboneCommon ns
  let b := reg.embedded.foldl
    (fun acc r => acc ++ backboneEmbeddedModel ns sing r) b
  reg.topLevel.foldl
    (fun acc r => acc ++ backboneTopLevelModel ns reg sing plur r) b

/-! ## RESTful route bindings (rest.js lines 30-90) -/

/-- HTTP method of a route binding (`app.get` / `app.post` / `app.put` /
`app.delete`). -/
inductive Method where
  | get | post | put | delete
deriving DecidableEq, Repr

/-- The five RESTful actions of a routes object. -/
inductive Action where
  | index | create | read | update | destroy
deriving DecidableEq, Repr

/-- Identity of the routes object a binding's handler belongs to: either the
top-level routes of a resource or the embedded routes of a child entry under
its parent. -/
inductive Owner where
  | top (resource : String)
  | emb (parent : String) (entry : Embedded)
deriving DecidableEq, Repr

/-- One route registration performed by `addRoutes`. -/
structure Binding where
  method : Method
  pattern : String
  action : Action
  owner : Owner
deriving DecidableEq, Repr

/-- rest.js `addRoutes` (lines 30-36): the five registrations made for one
routes object. -/
def addRoutes (pfx singular : String) (o : Owner) : List Binding :=
  [ ⟨.get, pfx ++ ".:format?", .index, o⟩
  , ⟨.post, pfx, .create, o⟩
  , ⟨.get, pfx ++ "/:" ++ singular ++ ".:format?", .read, o⟩
  , ⟨.put, pfx ++ "/:" ++ singular, .update, o⟩
  , ⟨.delete, pfx ++ "/:" ++ singular, .destroy, o⟩ ]

/-- The configuration object accepted by `rest.create`; absent properties
are `none`. -/
structure Config where
  path : Option String := none
  default_limit : Option Int := none
  max_limit : Option Int := none

/-- JavaScript `o || d` for an optional string (the empty string is falsy). -/
def jsOrS (o : Option String) (d : String) : String :=
  match o with
  | some s => if s == "" then d else s
  | none => d

/-- JavaScript `o || d` for an optional number (zero is falsy). -/
def jsOrI (o : Option Int) (d : Int) : Int :=
  match o with
  | some n => if n == 0 then d else n
  | none => d

/-- Route registrations performed for one top-level resource in the loop of
`exports.create` (rest.js lines 55-85), given the resolved root prefix
`root = config.path || '/'`: the five routes at `root ++ plural`, then for
each embedded child the five routes at
`root ++ plural ++ '/:' ++ singular ++ '/' ++ child.plural` with the child's
`singular` as route parameter. -/
def resourceBindings (children : String → List Embedded) (root : String)
    (sing plur : String → String) (res : String) : List Binding :=
  let singular := sing res
  let plural := plur res
  let topPfx := root ++ plural
  addRoutes topPfx singular (.top res) ++
    (children res).flatMap fun em =>
      let pfx := topPfx ++ "/:" ++ singular
      addRoutes (pfx ++ "/" ++ em.plural) em.singular (.emb res em)

/-- All route registrations performed by `exports.create` (rest.js lines
47-90) given the resolved root prefix: one `resourceBindings` block per
top-level resource, in registry order.  (`autoloadTopLevelResource`,
`autoloadEmbeddedResource` and `app.dynamicHelpers` register `app.param`
hooks and view helpers, not routes, and therefore do not appear in the
binding list.) -/
def createBindingsFrom (reg : Registry) (root : String)
    (sing plur : String → String) : List Binding :=
  reg.topLevel.flatMap (resourceBindings reg.children root sing plur)

/-- rest.js `exports.create`: the route registrations, with the root prefix
resolved from `config.path || '/'`.  Only `config.path` reaches the route
patterns; the pagination limits configure the index handler. -/
def createBindings (reg : Registry) (cfg : Config)
    (sing plur : String → String) : List Binding :=
  createBindingsFrom reg (jsOrS cfg.path "/") sing plur

/-! ## Route handler semantics (rest.js lines 182-447)

Each handler is embedded as a pure function from the incoming `Request` and
a `World` — the responses the ORM gives to the calls the handler issues —
to the list of ORM calls made together with the final `Outcome` delivered
to the framework (an error passed to `next`, a `response.send`, a render,
or a flash message plus redirect). -/

/-- The query-string of an index request.  Parameters are modelled by their
numeric value when present (`none` = absent or empty, which is falsy);
note the string `"0"` is truthy in JavaScript, so `some 0` does *not*
default. -/
structure IndexQuery where
  page : Option Int := none
  limit : Option Int := none
  order : Option String := none
  desc : Bool := false
deriving DecidableEq, Repr

/-- A mongoose model as the route code sees it: the schema tree keys
(`model.schema.tree`), and the optional static `filter`, `acl` and `search`
methods.  `acl user action obj cb` is modelled by the truthiness of the
value the app-supplied method passes to its callback; `search` either
reports an error or yields a query. -/
structure Model where
  tree : List String
  filter : Option (Fields → Fields) := none
  acl : Option (Option JVal → String → JVal → Bool) := none
  search : Option (IndexQuery → Option JVal → Option JVal) := none

/-- An incoming request: `request.xhr`, `request.format`, `request.user`,
the parsed body, the query string, the resources loaded by the autoload
`app.param` hooks (`request.resource(name)`), and the route parameters. -/
structure Request where
  xhr : Bool := false
  format : Option String := none
  user : Option JVal := none
  body : Fields := []
  query : IndexQuery := {}
  resources : String → Option JVal := fun _ => none
  params : String → Option String := fun _ => none

/-- Responses the ORM gives to the calls a handler makes: the error/result
of `query.run`, and the errors of `save` and `remove`. -/
structure World where
  queryError : Option JVal := none
  queryResults : Option (List JVal) := none
  saveError : Option JVal := none
  removeError : Option JVal := none

/-- Observable calls a handler makes into the ORM: running the index query
with the given skip/limit/sort, saving after assigning the given attributes
onto the instance, or removing the instance. -/
inductive OrmCall where
  | runQuery (skip : Int) (limit : Int) (sortArg : Option (String × Bool))
  | save (assigned : Fields)
  | remove
deriving DecidableEq, Repr

/-- Outcome a handler delivers to the framework. -/
inductive Outcome where
  | next (e : JVal)
  | send (v : JVal)
  | sendStatus (n : Nat)
  | render (view : String)
  | redirect (flash : String) (path : String)
deriving DecidableEq, Repr

/-- The type of an embedded route handler. -/
abbrev Handler := Request → World → List OrmCall × Outcome

/-- Effective pagination configuration after `exports.create` lines 50-52
(`config.default_limit = config.default_limit || 20;
config.max_limit = config.max_limit || 100`). -/
structure EffConfig where
  default_limit : Int
  max_limit : Int
deriving DecidableEq, Repr

/-- rest.js lines 50-52: resolve the configuration defaults. -/
def applyConfigDefaults (cfg : Config) : EffConfig :=
  ⟨jsOrI cfg.default_limit 20, jsOrI cfg.max_limit 100⟩

/-- Page size of the index query (rest.js line 192):
`Math.min(config.max_limit, request.query.limit || config.default_limit)`.
Query parameters are strings, so a present `limit` is always truthy. -/
def indexLimit (c : EffConfig) (q : IndexQuery) : Int :=
  min c.max_limit (q.limit.getD c.default_limit)

/-- Number of skipped results (rest.js lines 191,196):
`page = request.query.page || 1; offset = (page - 1) * limit`. -/
def indexSkip (c : EffConfig) (q : IndexQuery) : Int :=
  (q.page.getD 1 - 1) * indexLimit c q

/-- The `GET /<resource>` index handler (rest.js lines 190-238).  When the
model defines a static `search`, it is consulted first and its error goes
to `next`; otherwise (or on success) the query is run with the computed
skip/limit, optionally sorted when `request.query.order` is given.  An ORM
error is wrapped in `new Error(err)` and passed to `next`; XHR/JSON
requests receive the results (or `[]` for null), otherwise the index view
is rendered. -/
def indexHandler (m : Model) (c : EffConfig) (plural : String) : Handler :=
  fun req w =>
    let runPart : List OrmCall × Outcome :=
      ( [.runQuery (indexSkip c req.query) (indexLimit c req.query)
          (req.query.order.map (fun o => (o, req.query.desc)))]
      , match w.queryError with
        | some e => .next (jsNewError e)
        | none =>
            if req.xhr || req.format == some "json" then
              .send (.arr (w.queryResults.getD []))
            else
              .render (plural ++ "/index") )
    match m.search with
    | some f =>
        match f req.query req.user with
        | some e => ([], .next (jsNewError e))
        | none => runPart
    | none => runPart

/-- Attributes assigned onto the instance by the top-level create and update
handlers (rest.js lines 241-253 and 275-287): every body attribute whose key
is not in `model.schema.tree` is deleted, then, when the model defines a
static `filter`, the body is replaced by `model.filter(body)`, and finally
every remaining attribute is assigned. -/
def createAssign (m : Model) (body : Fields) : Fields :=
  let cleaned := body.filter (fun p => decide (p.1 ∈ m.tree))
  match m.filter with
  | some f => f cleaned
  | none => cleaned

/-- The `POST /<resource>` create handler (rest.js lines 241-263). -/
def createHandler (m : Model) (singular plural : String) : Handler :=
  fun req w =>
    let assigned := createAssign m req.body
    ( [.save assigned]
    , match w.saveError with
      | some e => .next (jsNewError e)
      | none =>
          if req.xhr || req.format == some "json" then
            .send (.obj assigned)
          else
            .redirect ("The " ++ singular ++ " was created successfully")
              ("/" ++ plural) )

/-- The `GET /<resource>/:id` read handler (rest.js lines 266-272). -/
def readHandler (singular plural : String) : Handler :=
  fun req _w =>
    ( []
    , if req.xhr || req.format == some "json" then
        .send ((req.resources singular).getD (.obj []))
      else
        .render (plural ++ "/read") )

/-- The `PUT /<resource>/:id` update handler (rest.js lines 275-297); the
body is cleaned and assigned exactly as in create. -/
def updateHandler (m : Model) (singular plural : String) : Handler :=
  fun req w =>
    let assigned := createAssign m req.body
    ( [.save assigned]
    , match w.saveError with
      | some e => .next (jsNewError e)
      | none =>
          if req.xhr || req.format == some "json" then
            .send (.obj assigned)
          else
            .redirect ("The " ++ singular ++ " was updated successfully")
              ("/" ++ plural ++ "/" ++ (req.params "id").getD "undefined") )

/-- The `DELETE /<resource>/:id` destroy handler (rest.js lines 300-310). -/
def destroyHandler (singular plural : String) : Handler :=
  fun req w =>
    ( [.remove]
    , match w.removeError with
      | some e => .next (jsNewError e)
      | none =>
          if req.xhr || req.format == some "json" then
            .sendStatus 200
          else
            .redirect ("The " ++ singular ++ " was removed successfully")
              ("/" ++ plural) )

/-- The unwrapped top-level routes object built by `topLevelRoutes`
(rest.js lines 182-310), before the optional ACL patching. -/
def topLevelBase (m : Model) (c : EffConfig) (resource : String)
    (sing plur : String → String) : Action → Handler
  | .index => indexHandler m c (plur resource)
  | .create => createHandler m (sing resource) (plur resource)
  | .read => readHandler (sing resource) (plur resource)
  | .update => updateHandler m (sing resource) (plur resource)
  | .destroy => destroyHandler (sing resource) (plur resource)

/-- Name under which an action is passed to `model.acl`. -/
def actionName : Action → String
  | .index => "index"
  | .create => "create"
  | .read => "read"
  | .update => "update"
  | .destroy => "destroy"

/-- The ACL patch applied to every action of a routes object (rest.js lines
313-326 and 431-444): the wrapped handler computes
`obj = request.resource(singular) || request.body`, calls
`acl(user, action, obj, cb)`, and runs the original handler exactly when the
callback receives a truthy `ok`; otherwise it passes `new Error('auth')` to
`next` without invoking the original handler. -/
def applyAcl (aclF : Option JVal → String → JVal → Bool) (singular : String)
    (base : Action → Handler) : Action → Handler :=
  fun a req w =>
    let obj := (req.resources singular).getD (.obj req.body)
    if aclF req.user (actionName a) obj then base a req w
    else ([], .next (.jerr "auth"))

/-- rest.js `topLevelRoutes`: the routes object, ACL-patched exactly when
the model defines a static `acl`. -/
def topLevelRoutes (m : Model) (c : EffConfig) (resource : String)
    (sing plur : String → String) : Action → Handler :=
  match m.acl with
  | some aclF => applyAcl aclF (sing resource) (topLevelBase m c resource sing plur)
  | none => topLevelBase m c resource sing plur

/-- Transformation the embedded index handler applies to each child before
sending (rest.js lines 362-368): `obj.id = obj._id; delete obj._id` — the
property write overwrites an existing `id` in place or appends it, then the
`_id` property is removed.  This is a top-level move only; nested values are
not descended into.  (When `_id` is absent the code assigns `undefined` to
`id`, which JSON serialisation drops; modelled as the identity.) -/
def embIndexChild (fs : Fields) : Fields :=
  match lookupVal fs "_id" with
  | some v => eraseKey (setKeyJs fs "id" v) "_id"
  | none => fs

/-- The child-to-JSON step of the embedded index handler on one element of
the parent's attribute array (`child.toJSON()` of an embedded document is an
object). -/
def embChildOut : JVal → JVal
  | .obj fs => .obj (embIndexChild fs)
  | v => v

/-- The embedded `GET .../<resource>` index handler (rest.js lines 357-371):
sends the parent's children with `_id` renamed to `id` on each, or `[]` when
the attribute is missing or empty. -/
def embIndexHandler (attrib parentSingular : String) : Handler :=
  fun req _w =>
    let children :=
      match (req.resources parentSingular).getD (.obj []) with
      | .obj fs =>
          match lookupVal fs attrib with
          | some (.arr cs) => cs.map embChildOut
          | _ => []
      | _ => []
    ([], .send (.arr children))

/-- Attributes assigned onto the new child by the embedded create and update
handlers (rest.js lines 380-384 and 404-407): body attributes are copied
exactly when their key is in `model.schema.tree` (no `filter` step here). -/
def embAssign (m : Model) (body : Fields) : Fields :=
  body.filter (fun p => decide (p.1 ∈ m.tree))

/-- The embedded `POST` create handler (rest.js lines 374-392): a new child
is populated from the schema-filtered body, pushed onto the parent's
attribute array, and the parent is saved; a save error is wrapped and passed
to `next`, otherwise the child is sent. -/
def embCreateHandler (m : Model) : Handler :=
  fun req w =>
    let assigned := embAssign m req.body
    ( [.save assigned]
    , match w.saveError with
      | some e => .next (jsNewError e)
      | none => .send (.obj assigned) )

/-- The embedded `GET .../:id` read handler (rest.js lines 395-398). -/
def embReadHandler (singular : String) : Handler :=
  fun req _w => ([], .send ((req.resources singular).getD (.obj [])))

/-- The embedded `PUT` update handler (rest.js lines 401-415). -/
def embUpdateHandler (m : Model) : Handler :=
  fun req w =>
    let assigned := embAssign m req.body
    ( [.save assigned]
    , match w.saveError with
      | some e => .next (jsNewError e)
      | none => .sendStatus 200 )

/-- The embedded `DELETE` destroy handler (rest.js lines 418-428): the child
is removed and the parent saved (no attributes are assigned by this save). -/
def embDestroyHandler : Handler :=
  fun _req w =>
    ( [.remove, .save []]
    , match w.saveError with
      | some e => .next (jsNewError e)
      | none => .sendStatus 200 )

/-- The unwrapped embedded routes object built by `embeddedRoutes`
(rest.js lines 344-428), before the optional ACL patching with the *parent*
model's `acl`. -/
def embBase (m : Model) (parentRes res attrib : String)
    (sing : String → String) : Action → Handler
  | .index => embIndexHandler attrib (sing parentRes)
  | .create => embCreateHandler m
  | .read => embReadHandler (sing res)
  | .update => embUpdateHandler m
  | .destroy => embDestroyHandler

/-- rest.js `embeddedRoutes`: the embedded routes object, patched through
the parent model's `acl` when it is defined; the `obj` passed to the ACL is
`request.resource(singular) || request.body` with the *child's* singular. -/
def embeddedRoutes (m pm : Model) (parentRes res attrib : String)
    (sing : String → String) : Action → Handler :=
  match pm.acl with
  | some aclF => applyAcl aclF (sing res) (embBase m parentRes res attrib sing)
  | none => embBase m parentRes res attrib sing

/-! ## Helper lemmas -/

/-- Concatenation of a list of strings, in order. -/
def strConcat : List String → String
  | [] => ""
  | x :: xs => x ++ strConcat xs

/-- A left fold that appends `f` of each element equals the initial string
followed by the concatenation of the pieces. -/
theorem foldl_append_eq_concat {α : Type} (f : α → String) :
    ∀ (l : List α) (b : String),
      l.foldl (fun acc r => acc ++ f r) b = b ++ strConcat (l.map f)
  | [], b => by simp [strConcat]
  | x :: xs, b => by
      simp only [List.foldl, List.map, strConcat]
      rw [foldl_append_eq_concat f xs (b ++ f x), String.append_assoc]

/-! ## Concrete instances used by witnesses and counterexamples -/

/-- A singularisation table for the example resources. -/
def singEx : String → String :=
  fun s => if s = "posts" then "post" else if s = "comments" then "comment" else s

/-- A pluralisation table for the example resources (already plural). -/
def plurEx : String → String := fun s => s

/-- An example embedded child entry (comments embedded in posts). -/
def embEx : Embedded :=
  { resource := "comments", attrib := "comments"
  , plural := "comments", singular := "comment" }

/-- An example registry: posts at top level with embedded comments. -/
def regEx : Registry :=
  { topLevel := ["posts"], embedded := ["comments"]
  , children := fun r => if r = "posts" then [embEx] else [] }

/-- An empty request. -/
def reqEmpty : Request := {}

/-- A world in which the index query reports the error `"boom"`. -/
def errWorld : World := { queryError := some (.prim "boom") }

/-- A model with an empty schema and no static methods. -/
def mPlain : Model := { tree := [] }

/-- A model whose ACL allows only the index action. -/
def mAcl : Model :=
  { tree := [], acl := some (fun _ a _ => a == "index") }

/-- C3: `backbone.generate` returns the string concatenation, in order, of
the common template, then one model/collection snippet per embedded model in
the registry, then one model/collection snippet per top-level model in the
registry — one definition per registered model, none missing, none extra. -/
theorem generate_eq_registry_concat (reg : Registry) (ns : String)
    (sing plur : String → String) :
    generate reg ns sing plur =
      backboneCommon ns
        ++ strConcat (reg.embedded.map (backboneEmbeddedModel ns sing))
        ++ strConcat (reg.topLevel.map (backboneTopLevelModel ns reg sing plur)) := by
  unfold generate
  rw [foldl_append_eq_concat, foldl_append_eq_concat]

/-! ## Claim C6: dependence of the generated surface on caller parameters -/

/-- C6 (amended): the bound route patterns depend on the caller-supplied
configuration only through `config.path` — two configurations agreeing on
`path` (whatever their pagination limits) produce identical bindings.  (The
original claim — that *any* two choices of config and namespace produce
identical patterns and text — is refuted by `claim_C6_counterexample`.) -/
theorem bindings_depend_only_on_path (reg : Registry)
    (sing plur : String → String) (c₁ c₂ : Config) (hp : c₁.path = c₂.path) :
    createBindings reg c₁ sing plur = createBindings reg c₂ sing plur := by
  unfold createBindings
  rw [hp]

/-- C6 witness: two configurations differing in their pagination limits but
agreeing on `path` produce identical bindings. -/
theorem bindings_depend_only_on_path_witness :
    createBindings regEx { path := some "/x/", default_limit := some 5 }
        singEx plurEx
      = createBindings regEx { path := some "/x/", max_limit := some 7 }
        singEx plurEx :=
  bindings_depend_only_on_path regEx singEx plurEx
    { path := some "/x/", default_limit := some 5 }
    { path := some "/x/", max_limit := some 7 } rfl

/-- C6 counterexample: the claim that the patterns and the generated text
are identical for *any* two choices of the caller-supplied parameters is
false — changing `config.path` changes the bound patterns, and changing
`namespace` changes the string `generate` returns. -/
theorem claim_C6_counterexample :
    ("/api/posts" ∈ (createBindings regEx { path := some "/api/" } singEx plurEx).map
        Binding.pattern
      ∧ "/api/posts" ∉ (createBindings regEx {} singEx plurEx).map Binding.pattern)
    ∧ generate regEx "NS" singEx plurEx ≠ generate regEx "" singEx plurEx := by
  exact ⟨⟨by decide, by decide⟩, by decide⟩

/-! ## Claim C9: pagination of the index query -/

/-- C9: for every index request the page size passed to the ORM query equals
`min(config.max_limit, requested limit if given else config.default_limit)`
— in particular it never exceeds `config.max_limit` and, when no limit is
requested, falls back to `config.default_limit` — and the number of skipped
results equals `(page - 1)` times that limit with `page` defaulting to `1`.
The configuration defaults (rest.js lines 50-52) are `max_limit = 100` and
`default_limit = 20`.  Both the plain index handler and the one consulting a
successful static `search` issue exactly that query. -/
theorem index_query_pagination :
    (∀ (tree : List String) (filt : Option (Fields → Fields))
        (aclF : Option (Option JVal → String → JVal → Bool))
        (c : EffConfig) (plural : String) (req : Request) (w : World),
      (indexHandler { tree := tree, filter := filt, acl := aclF, search := none }
          c plural req w).1
        = [.runQuery (indexSkip c req.query) (indexLimit c req.query)
            (req.query.order.map (fun o => (o, req.query.desc)))])
    ∧ (∀ (m : Model) (f : IndexQuery → Option JVal → Option JVal)
          (c : EffConfig) (plural : String) (req : Request) (w : World),
        m.search = some f → f req.query req.user = none →
        (indexHandler m c plural req w).1
          = [.runQuery (indexSkip c req.query) (indexLimit c req.query)
              (req.query.order.map (fun o => (o, req.query.desc)))])
    ∧ (∀ (c : EffConfig) (q : IndexQuery),
        indexLimit c q = min c.max_limit (q.limit.getD c.default_limit))
    ∧ (∀ (c : EffConfig) (q : IndexQuery), indexLimit c q ≤ c.max_limit)
    ∧ (∀ (c : EffConfig) (q : IndexQuery),
        indexSkip c q = (q.page.getD 1 - 1) * indexLimit c q)
    ∧ (∀ p : Option String,
        applyConfigDefaults { path := p } = { default_limit := 20, max_limit := 100 })
    ∧ (∀ (c : EffConfig) (p : Option Int) (o : Option String) (d : Bool),
        indexLimit c { page := p, order := o, desc := d }
          = min c.max_limit c.default_limit)
    ∧ (∀ (c : EffConfig) (l : Option Int) (o : Option String) (d : Bool),
        indexSkip c { limit := l, order := o, desc := d } = 0) := by
  refine ⟨fun _ _ _ _ _ _ _ => rfl, ?_, fun _ _ => rfl, ?_, fun _ _ => rfl,
    fun _ => rfl, fun _ _ _ _ => rfl, ?_⟩
  · intro m f c plural req w hs hf
    simp [indexHandler, hs, hf]
  · intro c q
    exact min_le_left _ _
  · intro c l o d
    simp [indexSkip]

/-- C9 witness: the search-consulting conjunct applied to a model whose
search succeeds on the empty request. -/
theorem index_query_pagination_witness :
    (indexHandler { tree := [], search := some (fun _ _ => none) }
        { default_limit := 20, max_limit := 100 } "posts" reqEmpty {}).1
      = [.runQuery 0 20 none] :=
  index_query_pagination.2.1
    { tree := [], search := some (fun _ _ => none) } (fun _ _ => none)
    { default_limit := 20, max_limit := 100 } "posts" reqEmpty {} rfl rfl

/-! ## Claim C5: how ORM errors reach the framework -/

/-- C5 (amended): every error reported by the ORM (from `run`, `save`,
`remove`, or a failing static `search`) is passed to `next` wrapped as
`new Error(err)` — an `Error` whose message is the stringification of the
reported value, not the reported value itself — and the ACL wrapper
additionally passes the module's own `new Error('auth')` to `next` when the
ACL denies.  The index handler's query error is covered on both of its
paths: with no static `search`, and with a `search` that succeeds before
`doQuery` runs the erroring query (rest.js lines 228-237 reaching line 209).
(The original claim of verbatim forwarding with no error values of the
module's own is refuted by `claim_C5_counterexample`.) -/
theorem orm_errors_wrapped_to_next :
    (∀ (tree : List String) (filt : Option (Fields → Fields))
        (aclF : Option (Option JVal → String → JVal → Bool))
        (c : EffConfig) (plural : String) (req : Request) (w : World) (e : JVal),
      (indexHandler { tree := tree, filter := filt, acl := aclF, search := none }
          c plural req { w with queryError := some e }).2 = .next (jsNewError e))
    ∧ (∀ (m : Model) (s p : String) (req : Request) (w : World) (e : JVal),
        (createHandler m s p req { w with saveError := some e }).2
          = .next (jsNewError e))
    ∧ (∀ (m : Model) (s p : String) (req : Request) (w : World) (e : JVal),
        (updateHandler m s p req { w with saveError := some e }).2
          = .next (jsNewError e))
    ∧ (∀ (s p : String) (req : Request) (w : World) (e : JVal),
        (destroyHandler s p req { w with removeError := some e }).2
          = .next (jsNewError e))
    ∧ (∀ (m : Model) (req : Request) (w : World) (e : JVal),
        (embCreateHandler m req { w with saveError := some e }).2
          = .next (jsNewError e))
    ∧ (∀ (m : Model) (req : Request) (w : World) (e : JVal),
        (embUpdateHandler m req { w with saveError := some e }).2
          = .next (jsNewError e))
    ∧ (∀ (req : Request) (w : World) (e : JVal),
        (embDestroyHandler req { w with saveError := some e }).2
          = .next (jsNewError e))
    ∧ (∀ (m : Model) (f : IndexQuery → Option JVal → Option JVal)
          (c : EffConfig) (plural : String) (req : Request) (w : World) (e : JVal),
        m.search = some f → f req.query req.user = some e →
        (indexHandler m c plural req w).2 = .next (jsNewError e))
    ∧ (∀ (m : Model) (f : IndexQuery → Option JVal → Option JVal)
          (c : EffConfig) (plural : String) (req : Request) (w : World) (e : JVal),
        m.search = some f → f req.query req.user = none →
        (indexHandler m c plural req { w with queryError := some e }).2
          = .next (jsNewError e))
    ∧ (∀ (aclF : Option JVal → String → JVal → Bool) (s : String)
          (base : Action → Handler) (a : Action) (req : Request) (w : World),
        aclF req.user (actionName a) ((req.resources s).getD (.obj req.body)) = false →
        applyAcl aclF s base a req w = ([], .next (.jerr "auth"))) := by
  refine ⟨fun _ _ _ _ _ _ _ _ => rfl, fun _ _ _ _ _ _ => rfl,
    fun _ _ _ _ _ _ => rfl, fun _ _ _ _ _ => rfl, fun _ _ _ _ => rfl,
    fun _ _ _ _ => rfl, fun _ _ _ => rfl, ?_, ?_, ?_⟩
  · intro m f c plural req w e hs hf
    simp [indexHandler, hs, hf]
  · intro m f c plural req w e hs hf
    simp [indexHandler, hs, hf]
  · intro aclF s base a req w hd
    simp [applyAcl, hd]

/-- C5 witness: a run error after a concrete succeeding search is wrapped
as `Error('boom')`, and a concrete denied ACL call produces the module's
own `Error('auth')`. -/
theorem orm_errors_wrapped_to_next_witness :
    (indexHandler { tree := [], search := some (fun _ _ => none) }
        { default_limit := 20, max_limit := 100 } "posts" reqEmpty errWorld).2
      = .next (.jerr "boom")
    ∧ applyAcl (fun _ _ _ => false) "post"
        (topLevelBase mPlain { default_limit := 20, max_limit := 100 }
          "posts" singEx plurEx) .index reqEmpty {}
      = ([], .next (.jerr "auth")) :=
  ⟨orm_errors_wrapped_to_next.2.2.2.2.2.2.2.2.1
      { tree := [], search := some (fun _ _ => none) } (fun _ _ => none)
      { default_limit := 20, max_limit := 100 } "posts" reqEmpty {}
      (.prim "boom") rfl rfl
  , orm_errors_wrapped_to_next.2.2.2.2.2.2.2.2.2 (fun _ _ _ => false) "post"
      (topLevelBase mPlain { default_limit := 20, max_limit := 100 }
        "posts" singEx plurEx) .index reqEmpty {} rfl⟩

/-- C5 counterexample: the index handler forwards the ORM error `"boom"` to
`next` as a *new* `Error` object, not as the reported value itself, so the
forwarding is not verbatim; and the ACL wrapper passes the module's own
`Error('auth')` to `next`. -/
theorem claim_C5_counterexample :
    (indexHandler mPlain { default_limit := 20, max_limit := 100 }
        "posts" reqEmpty errWorld).2 = .next (.jerr "boom")
    ∧ JVal.jerr "boom" ≠ JVal.prim "boom"
    ∧ applyAcl (fun _ _ _ => false) "post"
        (topLevelBase mPlain { default_limit := 20, max_limit := 100 }
          "posts" singEx plurEx) .destroy reqEmpty {}
      = ([], .next (.jerr "auth")) := by
  refine ⟨?_, by decide, rfl⟩
  simp [indexHandler, mPlain, errWorld, jsNewError, jsToString]

/-! ## Claim C4: ACL wrapping of route handlers -/

/-- C4: when a model defines a static `acl`, every one of its five route
handlers — and, for embedded routes, every handler of the child, wrapped
through the *parent* model's `acl` — runs the original handler exactly when
the ACL calls back with a truthy `ok`; when `ok` is falsy the wrapped
handler passes `new Error('auth')` to `next`, and the original handler is
never invoked (the result does not even depend on it). -/
theorem acl_wraps_every_handler :
    (∀ (m : Model) (aclF : Option JVal → String → JVal → Bool)
        (c : EffConfig) (resource : String) (sing plur : String → String)
        (a : Action) (req : Request) (w : World),
      m.acl = some aclF →
      ((aclF req.user (actionName a)
            ((req.resources (sing resource)).getD (.obj req.body)) = true →
          topLevelRoutes m c resource sing plur a req w
            = topLevelBase m c resource sing plur a req w)
        ∧ (aclF req.user (actionName a)
              ((req.resources (sing resource)).getD (.obj req.body)) = false →
            topLevelRoutes m c resource sing plur a req w
              = ([], .next (.jerr "auth")))))
    ∧ (∀ (m pm : Model) (aclF : Option JVal → String → JVal → Bool)
          (pr res attrib : String) (sing : String → String)
          (a : Action) (req : Request) (w : World),
        pm.acl = some aclF →
        ((aclF req.user (actionName a)
              ((req.resources (sing res)).getD (.obj req.body)) = true →
            embeddedRoutes m pm pr res attrib sing a req w
              = embBase m pr res attrib sing a req w)
          ∧ (aclF req.user (actionName a)
                ((req.resources (sing res)).getD (.obj req.body)) = false →
              embeddedRoutes m pm pr res attrib sing a req w
                = ([], .next (.jerr "auth")))))
    ∧ (∀ (aclF : Option JVal → String → JVal → Bool) (s : String)
          (b₁ b₂ : Action → Handler) (a : Action) (req : Request) (w : World),
        aclF req.user (actionName a) ((req.resources s).getD (.obj req.body)) = false →
        applyAcl aclF s b₁ a req w = applyAcl aclF s b₂ a req w) := by
  refine ⟨?_, ?_, ?_⟩
  · intro m aclF c resource sing plur a req w hacl
    constructor
    · intro hok
      simp [topLevelRoutes, hacl, applyAcl, hok]
    · intro hko
      simp [topLevelRoutes, hacl, applyAcl, hko]
  · intro m pm aclF pr res attrib sing a req w hacl
    constructor
    · intro hok
      simp [embeddedRoutes, hacl, applyAcl, hok]
    · intro hko
      simp [embeddedRoutes, hacl, applyAcl, hko]
  · intro aclF s b₁ b₂ a req w hko
    simp [applyAcl, hko]

/-- C4 witness: with an ACL allowing only `index`, the wrapped destroy
handler of a top-level model denies with `Error('auth')` while the wrapped
index handler behaves as the original; an embedded child handler is denied
through the parent's ACL. -/
theorem acl_wraps_every_handler_witness :
    topLevelRoutes mAcl { default_limit := 20, max_limit := 100 }
        "posts" singEx plurEx .destroy reqEmpty {}
      = ([], .next (.jerr "auth"))
    ∧ topLevelRoutes mAcl { default_limit := 20, max_limit := 100 }
        "posts" singEx plurEx .index reqEmpty {}
      = topLevelBase mAcl { default_limit := 20, max_limit := 100 }
        "posts" singEx plurEx .index reqEmpty {}
    ∧ embeddedRoutes mPlain mAcl "posts" "comments" "comments" singEx
        .update reqEmpty {}
      = ([], .next (.jerr "auth")) :=
  ⟨((acl_wraps_every_handler.1 mAcl (fun _ a _ => a == "index")
      { default_limit := 20, max_limit := 100 } "posts" singEx plurEx
      .destroy reqEmpty {} rfl).2 (by decide))
  , ((acl_wraps_every_handler.1 mAcl (fun _ a _ => a == "index")
      { default_limit := 20, max_limit := 100 } "posts" singEx plurEx
      .index reqEmpty {} rfl).1 (by decide))
  , ((acl_wraps_every_handler.2.1 mPlain mAcl (fun _ a _ => a == "index")
      "posts" "comments" "comments" singEx .update reqEmpty {} rfl).2 (by decide))⟩

/-! ## Claim C8: schema filtering of assigned attributes -/

/-- The top-level resource a routes object belongs to (the resource itself
for top-level routes, the parent for embedded routes). -/
def ownerResOf : Owner → String
  | .top r => r
  | .emb r _ => r

/-- The filter selecting the bindings of one routes object. -/
def pOwn (o : Owner) : Binding → Bool := fun b => decide (b.owner = o)

theorem owner_mem_addRoutes (pfx s : String) (o : Owner) :
    ∀ b ∈ addRoutes pfx s o, b.owner = o := by
  intro b hb
  simp only [addRoutes, List.mem_cons, List.not_mem_nil, or_false] at hb
  rcases hb with rfl | rfl | rfl | rfl | rfl <;> rfl

theorem filter_addRoutes_self (pfx s : String) (o : Owner) :
    (addRoutes pfx s o).filter (pOwn o) = addRoutes pfx s o := by
  simp [addRoutes, pOwn, List.filter]

theorem filter_addRoutes_ne (pfx s : String) (o o' : Owner) (h : o' ≠ o) :
    (addRoutes pfx s o').filter (pOwn o) = [] := by
  simp [addRoutes, pOwn, List.filter, h]

theorem ownerResOf_resourceBindings (ch : String → List Embedded)
    (root : String) (sing plur : String → String) (r : String) :
    ∀ b ∈ resourceBindings ch root sing plur r, ownerResOf b.owner = r := by
  intro b hb
  simp only [resourceBindings, List.mem_append, List.mem_flatMap] at hb
  rcases hb with hb | ⟨em, _, hb⟩
  · rw [owner_mem_addRoutes _ _ _ b hb]
    rfl
  · rw [owner_mem_addRoutes _ _ _ b hb]
    rfl

theorem filter_resourceBindings_ne (ch : String → List Embedded)
    (root : String) (sing plur : String → String) (r : String) (o : Owner)
    (h : ownerResOf o ≠ r) :
    (resourceBindings ch root sing plur r).filter (pOwn o) = [] := by
  apply List.filter_eq_nil_iff.mpr
  intro b hb
  have hr := ownerResOf_resourceBindings ch root sing plur r b hb
  simp only [pOwn, decide_eq_true_eq]
  intro hbo
  exact h (hbo ▸ hr)

theorem filter_flatMap_resource_nil (ch : String → List Embedded)
    (root : String) (sing plur : String → String) (o : Owner) :
    ∀ (l : List String), (∀ r ∈ l, ownerResOf o ≠ r) →
      ((l.flatMap (resourceBindings ch root sing plur)).filter (pOwn o)) = []
  | [], _ => rfl
  | r :: rs, h => by
      simp only [List.flatMap_cons, List.filter_append]
      rw [filter_resourceBindings_ne ch root sing plur r o (h r (.head rs)),
        filter_flatMap_resource_nil ch root sing plur o rs
          (fun r' hr' => h r' (.tail r hr'))]
      rfl

theorem filter_resourceBindings_top_self (ch : String → List Embedded)
    (root : String) (sing plur : String → String) (res : String) :
    (resourceBindings ch root sing plur res).filter (pOwn (.top res))
      = addRoutes (root ++ plur res) (sing res) (.top res) := by
  simp only [resourceBindings, List.filter_append]
  rw [filter_addRoutes_self]
  have hnil : (((ch res).flatMap fun em =>
      addRoutes ((root ++ plur res) ++ "/:" ++ sing res ++ "/" ++ em.plural)
        em.singular (.emb res em)).filter (pOwn (.top res))) = [] := by
    apply List.filter_eq_nil_iff.mpr
    intro b hb
    simp only [List.mem_flatMap] at hb
    obtain ⟨em, _, hb⟩ := hb
    rw [pOwn, owner_mem_addRoutes _ _ _ b hb]
    simp
  rw [hnil, List.append_nil]

theorem filter_flatMap_top (ch : String → List Embedded) (root : String)
    (sing plur : String → String) (res : String) :
    ∀ (l : List String), res ∈ l → l.Nodup →
      ((l.flatMap (resourceBindings ch root sing plur)).filter (pOwn (.top res)))
        = addRoutes (root ++ plur res) (sing res) (.top res)
  | [], hm, _ => absurd hm (List.not_mem_nil res)
  | r :: rs, hm, hnd => by
      simp only [List.flatMap_cons, List.filter_append]
      by_cases hr : r = res
      · subst hr
        rw [filter_resourceBindings_top_self,
          filter_flatMap_resource_nil ch root sing plur (.top r) rs
            (fun r' hr' heq => (List.nodup_cons.mp hnd).1 (by
              rw [show r = r' from heq]
              exact hr')),
          List.append_nil]
      · rw [filter_resourceBindings_ne ch root sing plur r (.top res)
            (by simpa [ownerResOf] using Ne.symm hr),
          filter_flatMap_top ch root sing plur res rs
            ((List.mem_cons.mp hm).resolve_left (fun h => hr h.symm))
            (List.nodup_cons.mp hnd).2]
        rfl

/-- C1: for every top-level model in the registry, `rest.create` binds
exactly the five RESTful routes — `GET pfx.:format?` (index), `POST pfx`
(create), `GET pfx/:singular.:format?` (read), `PUT pfx/:singular` (update),
`DELETE pfx/:singular` (destroy) — where `pfx` is `config.path || '/'`
followed by the pluralised resource name and `singular` is the singularised
resource name. -/
theorem top_level_routes_exact (reg : Registry) (cfg : Config)
    (sing plur : String → String) (res : String)
    (hm : res ∈ reg.topLevel) (hnd : reg.topLevel.Nodup) :
    (createBindings reg cfg sing plur).filter (pOwn (.top res))
      = [ ⟨.get, jsOrS cfg.path "/" ++ plur res ++ ".:format?", .index, .top res⟩
        , ⟨.post, jsOrS cfg.path "/" ++ plur res, .create, .top res⟩
        , ⟨.get, jsOrS cfg.path "/" ++ plur res ++ "/:" ++ sing res ++ ".:format?",
            .read, .top res⟩
        , ⟨.put, jsOrS cfg.path "/" ++ plur res ++ "/:" ++ sing res,
            .update, .top res⟩
        , ⟨.delete, jsOrS cfg.path "/" ++ plur res ++ "/:" ++ sing res,
            .destroy, .top res⟩ ] := by
  unfold createBindings createBindingsFrom
  rw [filter_flatMap_top reg.children (jsOrS cfg.path "/") sing plur res
    reg.topLevel hm hnd]
  rfl

theorem filter_emb_flatMap (base : String) (res : String) (em : Embedded) :
    ∀ (l : List Embedded), em ∈ l → l.Nodup →
      ((l.flatMap fun em' =>
          addRoutes (base ++ "/" ++ em'.plural) em'.singular (.emb res em')).filter
        (pOwn (.emb res em)))
        = addRoutes (base ++ "/" ++ em.plural) em.singular (.emb res em)
  | [], hm, _ => absurd hm (List.not_mem_nil em)
  | e :: es, hm, hnd => by
      simp only [List.flatMap_cons, List.filter_append]
      by_cases he : e = em
      · subst he
        rw [filter_addRoutes_self]
        have hnil : ((es.flatMap fun em' =>
            addRoutes (base ++ "/" ++ em'.plural) em'.singular (.emb res em')).filter
              (pOwn (.emb res e))) = [] := by
          apply List.filter_eq_nil_iff.mpr
          intro b hb
          simp only [List.mem_flatMap] at hb
          obtain ⟨em', hm', hb⟩ := hb
          rw [pOwn, owner_mem_addRoutes _ _ _ b hb]
          simp only [decide_eq_true_eq]
          intro hx
          exact (List.nodup_cons.mp hnd).1 ((Owner.emb.inj hx).2 ▸ hm')
        rw [hnil, List.append_nil]
      · rw [filter_addRoutes_ne _ _ _ _
            (fun hx => he (Owner.emb.inj hx).2),
          filter_emb_flatMap base res em es
            ((List.mem_cons.mp hm).resolve_left (fun h => he h.symm))
            (List.nodup_cons.mp hnd).2]
        rfl

theorem filter_resourceBindings_emb_self (ch : String → List Embedded)
    (root : String) (sing plur : String → String) (res : String)
    (em : Embedded) (he : em ∈ ch res) (hnd : (ch res).Nodup) :
    (resourceBindings ch root sing plur res).filter (pOwn (.emb res em))
      = addRoutes (root ++ plur res ++ "/:" ++ sing res ++ "/" ++ em.plural)
          em.singular (.emb res em) := by
  simp only [resourceBindings, List.filter_append]
  rw [filter_addRoutes_ne _ _ _ _ (by simp),
    filter_emb_flatMap (root ++ plur res ++ "/:" ++ sing res) res em
      (ch res) he hnd]
  rfl

theorem filter_flatMap_emb (ch : String → List Embedded) (root : String)
    (sing plur : String → String) (res : String) (em : Embedded)
    (hce : em ∈ ch res) (hcnd : (ch res).Nodup) :
    ∀ (l : List String), res ∈ l → l.Nodup →
      ((l.flatMap (resourceBindings ch root sing plur)).filter
          (pOwn (.emb res em)))
        = addRoutes (root ++ plur res ++ "/:" ++ sing res ++ "/" ++ em.plural)
            em.singular (.emb res em)
  | [], hm, _ => absurd hm (List.not_mem_nil res)
  | r :: rs, hm, hnd => by
      simp only [List.flatMap_cons, List.filter_append]
      by_cases hr : r = res
      · subst hr
        rw [filter_resourceBindings_emb_self ch root sing plur r em hce hcnd,
          filter_flatMap_resource_nil ch root sing plur (.emb r em) rs
            (fun r' hr' heq => (List.nodup_cons.mp hnd).1 (by
              rw [show r = r' from heq]
              exact hr')),
          List.append_nil]
      · rw [filter_resourceBindings_ne ch root sing plur r (.emb res em)
            (by simpa [ownerResOf] using Ne.symm hr),
          filter_flatMap_emb ch root sing plur res em hce hcnd rs
            ((List.mem_cons.mp hm).resolve_left (fun h => hr h.symm))
            (List.nodup_cons.mp hnd).2]
        rfl

/-- C2: for every embedded child of a top-level model, `rest.create` binds
the same five RESTful routes nested under the parent, at the prefix
`top_prefix ++ '/:' ++ parent_singular ++ '/' ++ child.plural`, with the
child's singularised name as the route parameter. -/
theorem embedded_routes_exact (reg : Registry) (cfg : Config)
    (sing plur : String → String) (res : String) (em : Embedded)
    (hm : res ∈ reg.topLevel) (hnd : reg.topLevel.Nodup)
    (hce : em ∈ reg.children res) (hcnd : (reg.children res).Nodup) :
    (createBindings reg cfg sing plur).filter (pOwn (.emb res em))
      = [ ⟨.get, jsOrS cfg.path "/" ++ plur res ++ "/:" ++ sing res ++ "/"
              ++ em.plural ++ ".:format?", .index, .emb res em⟩
        , ⟨.post, jsOrS cfg.path "/" ++ plur res ++ "/:" ++ sing res ++ "/"
              ++ em.plural, .create, .emb res em⟩
        , ⟨.get, jsOrS cfg.path "/" ++ plur res ++ "/:" ++ sing res ++ "/"
              ++ em.plural ++ "/:" ++ em.singular ++ ".:format?",
            .read, .emb res em⟩
        , ⟨.put, jsOrS cfg.path "/" ++ plur res ++ "/:" ++ sing res ++ "/"
              ++ em.plural ++ "/:" ++ em.singular, .update, .emb res em⟩
        , ⟨.delete, jsOrS cfg.path "/" ++ plur res ++ "/:" ++ sing res ++ "/"
              ++ em.plural ++ "/:" ++ em.singular, .destroy, .emb res em⟩ ] := by
  unfold createBindings createBindingsFrom
  rw [filter_flatMap_emb reg.children (jsOrS cfg.path "/") sing plur res em
    hce hcnd reg.topLevel hm hnd]
  rfl

/-- C2 witness: the example registry binds exactly the five nested routes
for the comments embedded under posts. -/
theorem embedded_routes_exact_witness :
    embEx ∈ regEx.children "posts"
    ∧ (createBindings regEx {} singEx plurEx).filter (pOwn (.emb "posts" embEx))
      = [ ⟨.get, "/posts/:post/comments.:format?", .index, .emb "posts" embEx⟩
        , ⟨.post, "/posts/:post/comments", .create, .emb "posts" embEx⟩
        , ⟨.get, "/posts/:post/comments/:comment.:format?", .read,
            .emb "posts" embEx⟩
        , ⟨.put, "/posts/:post/comments/:comment", .update, .emb "posts" embEx⟩
        , ⟨.delete, "/posts/:post/comments/:comment", .destroy,
            .emb "posts" embEx⟩ ] :=
  ⟨by decide
  , embedded_routes_exact regEx {} singEx plurEx "posts" embEx
      (by decide) (by decide) (by decide) (by decide)⟩

/-! ## Claim C7: class-name derivation by case conversion -/

theorem isLowerAZ_ne_underscore {c : Char} (h : isLowerAZ c = true) : c ≠ '_' := by
  intro he
  subst he
  exact absurd h (by decide)

theorem isLowerAZ_ne_space {c : Char} (h : isLowerAZ c = true) : c ≠ ' ' := by
  intro he
  subst he
  exact absurd h (by decide)

theorem toUpper_toNat {c : Char} (h : isLowerAZ c = true) :
    c.toUpper.toNat = c.toNat - 32 := by
  have h' : 97 ≤ c.toNat ∧ c.toNat ≤ 122 := by
    simp only [isLowerAZ, Bool.and_eq_true, decide_eq_true_eq] at h
    exact ⟨h.1, h.2⟩
  unfold Char.toUpper
  rw [if_pos ⟨h'.1, h'.2⟩, Char.ofNat,
    dif_pos (Or.inl (by omega : c.toNat - 32 < 55296))]
  rfl

theorem toUpper_ne_space {c : Char} (h : isLowerAZ c = true) :
    c.toUpper ≠ ' ' := by
  intro he
  have ht := toUpper_toNat h
  rw [he] at ht
  have h' : 97 ≤ c.toNat := by
    simp only [isLowerAZ, Bool.and_eq_true, decide_eq_true_eq] at h
    exact h.1
  have h32 : (' ').toNat = 32 := rfl
  omega

theorem replaceFirstU_word : ∀ (w rest : List Char), (∀ c ∈ w, c ≠ '_') →
    replaceFirstUnderscore (w ++ '_' :: rest) = w ++ ' ' :: rest
  | [], rest, _ => by simp [replaceFirstUnderscore]
  | c :: cs, rest, h => by
      have hc : (c == '_') = false := beq_eq_false_iff_ne.mpr (h c (.head cs))
      simp only [List.cons_append, replaceFirstUnderscore, hc,
        Bool.false_eq_true, if_false]
      exact congrArg (c :: ·) (replaceFirstU_word cs rest
        (fun x hx => h x (.tail c hx)))

theorem replaceFirstU_nounderscore : ∀ (w : List Char), (∀ c ∈ w, c ≠ '_') →
    replaceFirstUnderscore w = w
  | [], _ => rfl
  | c :: cs, h => by
      have hc : (c == '_') = false := beq_eq_false_iff_ne.mpr (h c (.head cs))
      simp only [replaceFirstUnderscore, hc, Bool.false_eq_true, if_false]
      exact congrArg (c :: ·) (replaceFirstU_nounderscore cs
        (fun x hx => h x (.tail c hx)))

theorem upBoundaries_false_nospace : ∀ (w rest : List Char),
    (∀ c ∈ w, c ≠ ' ') →
    upBoundaries false (w ++ rest) = w ++ upBoundaries false rest
  | [], rest, _ => rfl
  | c :: cs, rest, h => by
      have hc : (c == ' ') = false := beq_eq_false_iff_ne.mpr (h c (.head cs))
      simp only [List.cons_append, upBoundaries, Bool.false_and,
        Bool.false_eq_true, if_false, hc]
      exact congrArg (c :: ·) (upBoundaries_false_nospace cs rest
        (fun x hx => h x (.tail c hx)))

theorem upBoundaries_true_word (c : Char) (cs rest : List Char)
    (hc : isLowerAZ c = true) (hcs : ∀ x ∈ cs, isLowerAZ x = true) :
    upBoundaries true (c :: cs ++ rest)
      = c.toUpper :: cs ++ upBoundaries false rest := by
  have hsp : (c == ' ') = false :=
    beq_eq_false_iff_ne.mpr (isLowerAZ_ne_space hc)
  simp only [List.cons_append, upBoundaries, Bool.true_and, hc, if_true, hsp]
  exact congrArg (c.toUpper :: ·) (upBoundaries_false_nospace cs rest
    (fun x hx => isLowerAZ_ne_space (hcs x hx)))

theorem removeFirstSpace_append : ∀ (w rest : List Char),
    (∀ c ∈ w, c ≠ ' ') →
    removeFirstSpace (w ++ ' ' :: rest) = w ++ rest
  | [], rest, _ => by simp [removeFirstSpace]
  | c :: cs, rest, h => by
      have hc : (c == ' ') = false := beq_eq_false_iff_ne.mpr (h c (.head cs))
      simp only [List.cons_append, removeFirstSpace, hc,
        Bool.false_eq_true, if_false]
      exact congrArg (c :: ·) (removeFirstSpace_append cs rest
        (fun x hx => h x (.tail c hx)))

theorem removeFirstSpace_nospace : ∀ (w : List Char), (∀ c ∈ w, c ≠ ' ') →
    removeFirstSpace w = w
  | [], _ => rfl
  | c :: cs, h => by
      have hc : (c == ' ') = false := beq_eq_false_iff_ne.mpr (h c (.head cs))
      simp only [removeFirstSpace, hc, Bool.false_eq_true, if_false]
      exact congrArg (c :: ·) (removeFirstSpace_nospace cs
        (fun x hx => h x (.tail c hx)))

theorem upBoundaries_true_word_nil (c : Char) (cs : List Char)
    (hc : isLowerAZ c = true) (hcs : ∀ x ∈ cs, isLowerAZ x = true) :
    upBoundaries true (c :: cs) = c.toUpper :: cs := by
  have h := upBoundaries_true_word c cs [] hc hcs
  simpa [upBoundaries] using h

theorem classify_two_words (w₁ w₂ : List Char) (h₁ : w₁ ≠ []) (h₂ : w₂ ≠ [])
    (hl₁ : ∀ c ∈ w₁, isLowerAZ c = true) (hl₂ : ∀ c ∈ w₂, isLowerAZ c = true) :
    classify ⟨w₁ ++ '_' :: w₂⟩ = ⟨capitalizeWord w₁ ++ capitalizeWord w₂⟩ := by
  obtain ⟨c₁, cs₁, rfl⟩ := List.exists_cons_of_ne_nil h₁
  obtain ⟨c₂, cs₂, rfl⟩ := List.exists_cons_of_ne_nil h₂
  have hc₁ : isLowerAZ c₁ = true := hl₁ c₁ (.head cs₁)
  have hcs₁ : ∀ x ∈ cs₁, isLowerAZ x = true := fun x hx => hl₁ x (.tail c₁ hx)
  have hc₂ : isLowerAZ c₂ = true := hl₂ c₂ (.head cs₂)
  have hcs₂ : ∀ x ∈ cs₂, isLowerAZ x = true := fun x hx => hl₂ x (.tail c₂ hx)
  unfold classify
  congr 1
  rw [show (String.mk (c₁ :: cs₁ ++ '_' :: (c₂ :: cs₂))).data
      = c₁ :: cs₁ ++ '_' :: (c₂ :: cs₂) from rfl]
  rw [replaceFirstU_word _ _
    (fun c hc => isLowerAZ_ne_underscore (hl₁ c hc))]
  rw [upBoundaries_true_word c₁ cs₁ (' ' :: (c₂ :: cs₂)) hc₁ hcs₁]
  rw [show upBoundaries false (' ' :: (c₂ :: cs₂))
      = ' ' :: upBoundaries true (c₂ :: cs₂) from rfl]
  rw [upBoundaries_true_word_nil c₂ cs₂ hc₂ hcs₂]
  rw [show c₁.toUpper :: cs₁ ++ ' ' :: (c₂.toUpper :: cs₂)
      = (c₁.toUpper :: cs₁) ++ ' ' :: (c₂.toUpper :: cs₂) from rfl]
  rw [removeFirstSpace_append (c₁.toUpper :: cs₁) _ ?_]
  · simp [capitalizeWord]
  · intro x hx
    rcases List.mem_cons.mp hx with rfl | hx
    · exact toUpper_ne_space hc₁
    · exact isLowerAZ_ne_space (hcs₁ x hx)

theorem classify_one_word : ∀ (w : List Char),
    (∀ c ∈ w, isLowerAZ c = true) → classify ⟨w⟩ = ⟨capitalizeWord w⟩
  | [], _ => rfl
  | c :: cs, h => by
      have hc : isLowerAZ c = true := h c (.head cs)
      have hcs : ∀ x ∈ cs, isLowerAZ x = true := fun x hx => h x (.tail c hx)
      unfold classify
      congr 1
      rw [show (String.mk (c :: cs)).data = c :: cs from rfl]
      rw [replaceFirstU_nounderscore _
        (fun x hx => isLowerAZ_ne_underscore (h x hx))]
      rw [upBoundaries_true_word_nil c cs hc hcs]
      rw [removeFirstSpace_nospace _ ?_]
      · simp [capitalizeWord]
      · intro x hx
        rcases List.mem_cons.mp hx with rfl | hx
        · exact toUpper_ne_space hc
        · exact isLowerAZ_ne_space (hcs x hx)

/-- C7 (amended): `classify` capitalises after replacing only the *first*
underscore with a space and then removing only the first space, so a
lowercase name with at most one underscore becomes the concatenation of its
capitalised words (`my_table` to `MyTable`, `post` to `Post`), while any
later underscores survive (`claim_C7_counterexample`); the generated class
name prepends the namespace to `classify` of the singularised resource name
(the embedded-model snippet spells this out). -/
theorem class_name_derivation :
    (∀ (w₁ w₂ : List Char), w₁ ≠ [] → w₂ ≠ [] →
        (∀ c ∈ w₁, isLowerAZ c = true) → (∀ c ∈ w₂, isLowerAZ c = true) →
        classify ⟨w₁ ++ '_' :: w₂⟩ = ⟨capitalizeWord w₁ ++ capitalizeWord w₂⟩)
    ∧ (∀ (w : List Char), (∀ c ∈ w, isLowerAZ c = true) →
        classify ⟨w⟩ = ⟨capitalizeWord w⟩)
    ∧ (∀ (ns : String) (sing : String → String) (res : String),
        backboneEmbeddedModel ns sing res
          = "var " ++ (ns ++ classify (sing res)) ++ " = " ++ ns
            ++ "Model.extend(\x7b\x7d)\n"
            ++ "  , " ++ (ns ++ classify (sing res)) ++ "Collection = "
            ++ ns ++ "Collection.extend(\x7b model: "
            ++ (ns ++ classify (sing res)) ++ " \x7d);\n\n") :=
  ⟨classify_two_words, classify_one_word, fun _ _ _ => rfl⟩

/-- C7 witness: `my_table` classifies to `MyTable`. -/
theorem class_name_derivation_witness :
    classify ⟨['m', 'y'] ++ '_' :: ['t', 'a', 'b', 'l', 'e']⟩
      = ⟨capitalizeWord ['m', 'y'] ++ capitalizeWord ['t', 'a', 'b', 'l', 'e']⟩
    ∧ classify "my_table" = "MyTable" :=
  ⟨class_name_derivation.1 ['m', 'y'] ['t', 'a', 'b', 'l', 'e']
      (by decide) (by decide) (by decide) (by decide)
  , by decide⟩

/-- C7 counterexample: only the first underscore is handled, so a name with
two underscores does not become the concatenation of its three capitalised
words as claimed — `my_big_table` yields `MyBig_table`, not `MyBigTable`. -/
theorem claim_C7_counterexample :
    classify "my_big_table" = "MyBig_table"
    ∧ classify "my_big_table" ≠ "MyBigTable" := by
  exact ⟨by decide, by decide⟩

/-! ## Claim C10: renaming of the underscore-id key -/

mutual

/-- Does a value contain an `_id` key at any nesting level? -/
def hasUid : JVal → Bool
  | .prim _ => false
  | .jerr _ => false
  | .arr xs => hasUidList xs
  | .obj fs => hasUidFields fs

/-- `hasUid` on the elements of an array. -/
def hasUidList : List JVal → Bool
  | [] => false
  | x :: xs => hasUid x || hasUidList xs

/-- `hasUid` on a field list: an `_id` key here or anywhere below. -/
def hasUidFields : Fields → Bool
  | [] => false
  | (k, v) :: rest => k == "_id" || hasUid v || hasUidFields rest

end

mutual

/-- Well-formedness of a document for the renaming claim: every object has
unique keys (as any JavaScript object does) and the value stored under any
`_id` key is itself free of `_id` keys (as actual document ids, which are
scalars, are). -/
def cleanIds : JVal → Bool
  | .prim _ => true
  | .jerr _ => true
  | .arr xs => cleanIdsList xs
  | .obj fs => cleanIdsFields fs

/-- `cleanIds` on the elements of an array. -/
def cleanIdsList : List JVal → Bool
  | [] => true
  | x :: xs => cleanIds x && cleanIdsList xs

/-- `cleanIds` on a field list: keys are unique, `_id` values are free of
`_id`, and other values are recursively clean. -/
def cleanIdsFields : Fields → Bool
  | [] => true
  | (k, v) :: rest =>
      !hasKey rest k && (if k == "_id" then !hasUid v else cleanIds v)
        && cleanIdsFields rest

end

theorem hasKey_false_keys_ne : ∀ (fs : Fields) (k : String),
    hasKey fs k = false → ∀ p ∈ fs, p.1 ≠ k
  | [], _, _, p, hp => absurd hp (List.not_mem_nil p)
  | (k', v) :: rest, k, h, p, hp => by
      simp only [hasKey, Bool.or_eq_false_iff] at h
      rcases List.mem_cons.mp hp with rfl | hp
      · exact beq_eq_false_iff_ne.mp h.1
      · exact hasKey_false_keys_ne rest k h.2 p hp

theorem lookupVal_eq_none_of_hasKey_false : ∀ (fs : Fields) (k : String),
    hasKey fs k = false → lookupVal fs k = none
  | [], _, _ => rfl
  | (k', v) :: rest, k, h => by
      simp only [hasKey, Bool.or_eq_false_iff] at h
      simp only [lookupVal, h.1, Bool.false_eq_true, if_false]
      exact lookupVal_eq_none_of_hasKey_false rest k h.2

theorem hasKey_eq_false_of_lookupVal_none : ∀ (fs : Fields) (k : String),
    lookupVal fs k = none → hasKey fs k = false
  | [], _, _ => rfl
  | (k', v) :: rest, k, h => by
      by_cases hk : (k' == k) = true
      · simp [lookupVal, hk] at h
      · simp only [lookupVal, hk, Bool.false_eq_true, if_false] at h
        simp only [hasKey, eq_false_of_ne_true hk, Bool.false_or]
        exact hasKey_eq_false_of_lookupVal_none rest k h

theorem hasKey_eraseKey_false : ∀ (fs : Fields) (k k' : String),
    hasKey fs k = false → hasKey (eraseKey fs k') k = false
  | [], _, _, _ => rfl
  | (k₀, v) :: rest, k, k', h => by
      simp only [hasKey, Bool.or_eq_false_iff] at h
      simp only [eraseKey]
      by_cases h₀ : (k₀ == k') = true
      · simp only [h₀, if_true]
        exact h.2
      · simp only [h₀, Bool.false_eq_true, if_false, hasKey, h.1,
          Bool.false_or]
        exact hasKey_eraseKey_false rest k k' h.2

theorem hasKey_append : ∀ (a b : Fields) (k : String),
    hasKey (a ++ b) k = (hasKey a k || hasKey b k)
  | [], b, k => rfl
  | (k', v) :: rest, b, k => by
      simp only [List.cons_append, hasKey, List.append_eq]
      rw [hasKey_append rest b k, Bool.or_assoc]

theorem lookupVal_append : ∀ (a b : Fields) (k : String),
    lookupVal (a ++ b) k
      = match lookupVal a k with
        | some v => some v
        | none => lookupVal b k
  | [], b, k => rfl
  | (k', v) :: rest, b, k => by
      by_cases hk : (k' == k) = true
      · simp [lookupVal, hk]
      · simp only [List.cons_append, lookupVal, hk, Bool.false_eq_true,
          if_false]
        exact lookupVal_append rest b k

theorem lookupVal_eraseKey_ne : ∀ (fs : Fields) (k k' : String),
    ¬(k = k') → lookupVal (eraseKey fs k') k = lookupVal fs k
  | [], _, _, _ => rfl
  | (k₀, v) :: rest, k, k', h => by
      by_cases h₀ : (k₀ == k') = true
      · have hne : (k₀ == k) = false := by
          rw [eq_of_beq h₀]
          exact beq_eq_false_iff_ne.mpr (fun he => h he.symm)
        simp only [eraseKey, h₀, if_true, lookupVal, hne, Bool.false_eq_true,
          if_false]
      · simp only [eraseKey, h₀, Bool.false_eq_true, if_false, lookupVal]
        by_cases hk : (k₀ == k) = true
        · simp only [hk, if_true]
        · simp only [hk, Bool.false_eq_true, if_false]
          exact lookupVal_eraseKey_ne rest k k' h

theorem hasKey_of_lookupVal_some : ∀ (fs : Fields) (k : String) (v : JVal),
    lookupVal fs k = some v → hasKey fs k = true
  | [], _, _, h => by simp [lookupVal] at h
  | (k', w) :: rest, k, v, h => by
      by_cases hk : (k' == k) = true
      · simp [hasKey, hk]
      · simp only [lookupVal, hk, Bool.false_eq_true, if_false] at h
        simp only [hasKey, Bool.or_eq_true]
        exact Or.inr (hasKey_of_lookupVal_some rest k v h)

theorem eraseKey_append_left : ∀ (a b : Fields) (k : String),
    hasKey a k = true → eraseKey (a ++ b) k = eraseKey a k ++ b
  | [], _, _, h => by simp [hasKey] at h
  | (k', v) :: rest, b, k, h => by
      by_cases hk : (k' == k) = true
      · simp [eraseKey, hk]
      · simp only [hasKey, hk, Bool.false_or] at h
        simp only [List.cons_append, eraseKey, hk, Bool.false_eq_true,
          if_false, List.cons_append]
        exact congrArg ((k', v) :: ·) (eraseKey_append_left rest b k h)

theorem hasUidFields_append : ∀ (a b : Fields),
    hasUidFields (a ++ b) = (hasUidFields a || hasUidFields b)
  | [], b => rfl
  | (k, v) :: rest, b => by
      simp only [List.cons_append, hasUidFields, List.append_eq]
      rw [hasUidFields_append rest b]
      simp [Bool.or_assoc]

theorem cleanIdsFields_eraseKey : ∀ (fs : Fields) (k : String),
    cleanIdsFields fs = true → cleanIdsFields (eraseKey fs k) = true
  | [], _, _ => rfl
  | (k', v) :: rest, k, h => by
      simp only [cleanIdsFields, Bool.and_eq_true] at h
      obtain ⟨⟨hk', hv⟩, hrest⟩ := h
      by_cases h₀ : (k' == k) = true
      · simp only [eraseKey, h₀, if_true]
        exact hrest
      · simp only [eraseKey, h₀, Bool.false_eq_true, if_false, cleanIdsFields,
          Bool.and_eq_true]
        refine ⟨⟨?_, hv⟩, cleanIdsFields_eraseKey rest k hrest⟩
        rw [Bool.not_eq_true'] at hk' ⊢
        exact hasKey_eraseKey_false rest k' k hk'

theorem cleanIdsFields_lookup_uid : ∀ (fs : Fields) (v : JVal),
    cleanIdsFields fs = true → lookupVal fs "_id" = some v → hasUid v = false
  | [], _, _, h => by simp [lookupVal] at h
  | (k', w) :: rest, v, hc, hl => by
      simp only [cleanIdsFields, Bool.and_eq_true] at hc
      obtain ⟨⟨_, hv⟩, hrest⟩ := hc
      by_cases h₀ : (k' == "_id") = true
      · simp only [lookupVal, h₀, if_true] at hl
        cases hl
        simp only [h₀, if_true, Bool.not_eq_true'] at hv
        exact hv
      · simp only [lookupVal, h₀, Bool.false_eq_true, if_false] at hl
        exact cleanIdsFields_lookup_uid rest v hrest hl

theorem cleanIdsFields_eraseKey_no_id : ∀ (fs : Fields),
    cleanIdsFields fs = true → ∀ p ∈ eraseKey fs "_id", p.1 ≠ "_id"
  | [], _, p, hp => absurd hp (List.not_mem_nil p)
  | (k', v) :: rest, h, p, hp => by
      simp only [cleanIdsFields, Bool.and_eq_true] at h
      obtain ⟨⟨hk', _⟩, hrest⟩ := h
      by_cases h₀ : (k' == "_id") = true
      · simp only [eraseKey, h₀, if_true] at hp
        have hkr : hasKey rest "_id" = false := by
          rw [← eq_of_beq h₀]
          simpa using hk'
        exact hasKey_false_keys_ne rest "_id" hkr p hp
      · simp only [eraseKey, h₀, Bool.false_eq_true, if_false] at hp
        rcases List.mem_cons.mp hp with rfl | hp
        · exact beq_eq_false_iff_ne.mp (eq_false_of_ne_true h₀)
        · exact cleanIdsFields_eraseKey_no_id rest hrest p hp

theorem hasUidFields_false_no_id : ∀ (fs : Fields),
    hasUidFields fs = false → hasKey fs "_id" = false
  | [], _ => rfl
  | (k, v) :: rest, h => by
      simp only [hasUidFields, Bool.or_eq_false_iff] at h
      simp only [hasKey, h.1.1, Bool.false_or]
      exact hasUidFields_false_no_id rest h.2

mutual

theorem hasUid_conv_preserve : ∀ (v : JVal), hasUid v = false →
    hasUid (convertUnderscoreId v) = false
  | .prim _, _ => by simp [convertUnderscoreId, hasUid]
  | .jerr _, _ => by simp [convertUnderscoreId, hasUid]
  | .arr xs, h => by
      rw [show convertUnderscoreId (.arr xs) = .arr (convChildren xs) from by
        simp [convertUnderscoreId]]
      exact hasUidList_conv_preserve xs h
  | .obj fs, h => by
      rw [show convertUnderscoreId (.obj fs) = .obj (convertFields fs) from by
        simp [convertUnderscoreId]]
      exact hasUidFields_convertFields_preserve fs h
termination_by v => 2 * sizeOf v

theorem hasUidList_conv_preserve : ∀ (xs : List JVal), hasUidList xs = false →
    hasUidList (convChildren xs) = false
  | [], _ => by simp [convChildren, hasUidList]
  | x :: xs, h => by
      simp only [hasUidList, Bool.or_eq_false_iff] at h
      rw [show convChildren (x :: xs)
          = convertUnderscoreId x :: convChildren xs from by simp [convChildren]]
      show (hasUid (convertUnderscoreId x) || hasUidList (convChildren xs)) = false
      rw [hasUid_conv_preserve x h.1, hasUidList_conv_preserve xs h.2]
      rfl
termination_by xs => 2 * sizeOf xs

theorem hasUidFields_convAll_preserve : ∀ (fs : Fields), hasUidFields fs = false →
    hasUidFields (convAllFields fs) = false
  | [], _ => by simp [convAllFields, hasUidFields]
  | (k, v) :: rest, h => by
      simp only [hasUidFields, Bool.or_eq_false_iff] at h
      rw [show convAllFields ((k, v) :: rest)
          = (k, convertUnderscoreId v) :: convAllFields rest from by
        simp [convAllFields]]
      show (k == "_id" || hasUid (convertUnderscoreId v)
        || hasUidFields (convAllFields rest)) = false
      rw [h.1.1, hasUid_conv_preserve v h.1.2,
        hasUidFields_convAll_preserve rest h.2]
      rfl
termination_by fs => 2 * sizeOf fs

theorem hasUidFields_convertFields_preserve : ∀ (fs : Fields),
    hasUidFields fs = false → hasUidFields (convertFields fs) = false
  | fs, h => by
      have hl : lookupVal fs "_id" = none :=
        lookupVal_eq_none_of_hasKey_false fs "_id" (hasUidFields_false_no_id fs h)
      rw [convertFields_none fs hl]
      exact hasUidFields_convAll_preserve fs h
termination_by fs => 2 * sizeOf fs + 1

end

mutual

theorem cleanIds_conv : ∀ (v : JVal), cleanIds v = true →
    hasUid (convertUnderscoreId v) = false
  | .prim _, _ => by simp [convertUnderscoreId, hasUid]
  | .jerr _, _ => by simp [convertUnderscoreId, hasUid]
  | .arr xs, h => by
      rw [show convertUnderscoreId (.arr xs) = .arr (convChildren xs) from by
        simp [convertUnderscoreId]]
      exact cleanIdsList_conv xs h
  | .obj fs, h => by
      rw [show convertUnderscoreId (.obj fs) = .obj (convertFields fs) from by
        simp [convertUnderscoreId]]
      exact cleanIdsFields_convertFields fs h
termination_by v => 2 * sizeOf v

theorem cleanIdsList_conv : ∀ (xs : List JVal), cleanIdsList xs = true →
    hasUidList (convChildren xs) = false
  | [], _ => by simp [convChildren, hasUidList]
  | x :: xs, h => by
      simp only [cleanIdsList, Bool.and_eq_true] at h
      rw [show convChildren (x :: xs)
          = convertUnderscoreId x :: convChildren xs from by simp [convChildren]]
      show (hasUid (convertUnderscoreId x) || hasUidList (convChildren xs)) = false
      rw [cleanIds_conv x h.1, cleanIdsList_conv xs h.2]
      rfl
termination_by xs => 2 * sizeOf xs

theorem cleanIdsFields_convAll : ∀ (fs : Fields), (∀ p ∈ fs, p.1 ≠ "_id") →
    cleanIdsFields fs = true → hasUidFields (convAllFields fs) = false
  | [], _, _ => by simp [convAllFields, hasUidFields]
  | (k, v) :: rest, hn, h => by
      simp only [cleanIdsFields, Bool.and_eq_true] at h
      obtain ⟨⟨_, hv⟩, hrest⟩ := h
      have hkb : (k == "_id") = false :=
        beq_eq_false_iff_ne.mpr (hn (k, v) (.head rest))
      simp only [hkb, Bool.false_eq_true, if_false] at hv
      rw [show convAllFields ((k, v) :: rest)
          = (k, convertUnderscoreId v) :: convAllFields rest from by
        simp [convAllFields]]
      show (k == "_id" || hasUid (convertUnderscoreId v)
        || hasUidFields (convAllFields rest)) = false
      rw [hkb, cleanIds_conv v hv,
        cleanIdsFields_convAll rest (fun p hp => hn p (.tail _ hp)) hrest]
      rfl
termination_by fs => 2 * sizeOf fs

theorem cleanIdsFields_convSet : ∀ (u : JVal) (fs : Fields),
    hasUid u = false → (∀ p ∈ fs, p.1 ≠ "_id") → cleanIdsFields fs = true →
    hasUidFields (convFieldsSet u fs) = false
  | _, [], _, _, _ => by simp [convFieldsSet, hasUidFields]
  | u, (k, v) :: rest, hu, hn, h => by
      simp only [cleanIdsFields, Bool.and_eq_true] at h
      obtain ⟨⟨_, hv⟩, hrest⟩ := h
      have hkb : (k == "_id") = false :=
        beq_eq_false_iff_ne.mpr (hn (k, v) (.head rest))
      have hrec := cleanIdsFields_convSet u rest hu
        (fun p hp => hn p (.tail _ hp)) hrest
      by_cases hid : (k == "id") = true
      · rw [show convFieldsSet u ((k, v) :: rest)
            = (k, u) :: convFieldsSet u rest from by simp [convFieldsSet, hid]]
        show (k == "_id" || hasUid u || hasUidFields (convFieldsSet u rest)) = false
        rw [hkb, hu, hrec]
        rfl
      · simp only [hkb, Bool.false_eq_true, if_false] at hv
        rw [show convFieldsSet u ((k, v) :: rest)
            = (k, convertUnderscoreId v) :: convFieldsSet u rest from by
          simp [convFieldsSet, hid]]
        show (k == "_id" || hasUid (convertUnderscoreId v)
          || hasUidFields (convFieldsSet u rest)) = false
        rw [hkb, cleanIds_conv v hv, hrec]
        rfl
termination_by _ fs => 2 * sizeOf fs

theorem cleanIdsFields_convertFields : ∀ (fs : Fields),
    cleanIdsFields fs = true → hasUidFields (convertFields fs) = false
  | fs, h => by
      cases hl : lookupVal fs "_id" with
      | none =>
          rw [convertFields_none fs hl]
          exact cleanIdsFields_convAll fs
            (hasKey_false_keys_ne fs "_id"
              (hasKey_eq_false_of_lookupVal_none fs "_id" hl)) h
      | some v =>
          have hv : hasUid v = false := cleanIdsFields_lookup_uid fs v h hl
          have hn := cleanIdsFields_eraseKey_no_id fs h
          have hcl := cleanIdsFields_eraseKey fs "_id" h
          by_cases hb : keyBefore "id" "_id" fs = true
          · rw [convertFields_some_before fs v hl hb]
            exact cleanIdsFields_convSet v (eraseKey fs "_id") hv hn hcl
          · have hb' : keyBefore "id" "_id" fs = false := eq_false_of_ne_true hb
            by_cases hk : hasKey fs "id" = true
            · rw [convertFields_some_after fs v hl hb' hk]
              exact cleanIdsFields_convSet _ _ (hasUid_conv_preserve v hv) hn hcl
            · have hk' : hasKey fs "id" = false := eq_false_of_ne_true hk
              rw [convertFields_some_append fs v hl hb' hk']
              rw [hasUidFields_append, cleanIdsFields_convAll _ hn hcl]
              show (false || hasUidFields [("id", v)]) = false
              simp [hasUidFields, hv]
termination_by fs => 2 * sizeOf fs + 1
decreasing_by
  all_goals simp_wf
  all_goals
    first
      | omega
      | exact dec_measure_erase fs "_id"

end

theorem lookupVal_convAllFields : ∀ (fs : Fields) (k : String),
    lookupVal (convAllFields fs) k = (lookupVal fs k).map convertUnderscoreId
  | [], _ => by simp [convAllFields, lookupVal]
  | (k', v) :: rest, k => by
      rw [show convAllFields ((k', v) :: rest)
          = (k', convertUnderscoreId v) :: convAllFields rest from by
        simp [convAllFields]]
      by_cases hk : (k' == k) = true
      · simp [lookupVal, hk]
      · simp only [lookupVal, hk, Bool.false_eq_true, if_false]
        exact lookupVal_convAllFields rest k

theorem lookupVal_convFieldsSet : ∀ (u : JVal) (fs : Fields) (k : String),
    ¬(k = "id") →
    lookupVal (convFieldsSet u fs) k = (lookupVal fs k).map convertUnderscoreId
  | _, [], _, _ => by simp [convFieldsSet, lookupVal]
  | u, (k', v) :: rest, k, hk => by
      by_cases hid : (k' == "id") = true
      · rw [show convFieldsSet u ((k', v) :: rest)
            = (k', u) :: convFieldsSet u rest from by simp [convFieldsSet, hid]]
        have hne : (k' == k) = false := by
          rw [eq_of_beq hid]
          exact beq_eq_false_iff_ne.mpr (fun he => hk he.symm)
        simp only [lookupVal, hne, Bool.false_eq_true, if_false]
        exact lookupVal_convFieldsSet u rest k hk
      · rw [show convFieldsSet u ((k', v) :: rest)
            = (k', convertUnderscoreId v) :: convFieldsSet u rest from by
          simp [convFieldsSet, hid]]
        by_cases hkk : (k' == k) = true
        · simp [lookupVal, hkk]
        · simp only [lookupVal, hkk, Bool.false_eq_true, if_false]
          exact lookupVal_convFieldsSet u rest k hk

theorem lookupVal_convertFields (fs : Fields) (k : String)
    (hki : ¬(k = "id")) (hkui : ¬(k = "_id")) :
    lookupVal (convertFields fs) k = (lookupVal fs k).map convertUnderscoreId := by
  cases hl : lookupVal fs "_id" with
  | none => rw [convertFields_none fs hl, lookupVal_convAllFields]
  | some v =>
      have herase := lookupVal_eraseKey_ne fs k "_id" hkui
      by_cases hb : keyBefore "id" "_id" fs = true
      · rw [convertFields_some_before fs v hl hb,
          lookupVal_convFieldsSet v _ k hki, herase]
      · have hb' := eq_false_of_ne_true hb
        by_cases hk : hasKey fs "id" = true
        · rw [convertFields_some_after fs v hl hb' hk,
            lookupVal_convFieldsSet _ _ k hki, herase]
        · have hk' := eq_false_of_ne_true hk
          rw [convertFields_some_append fs v hl hb' hk', lookupVal_append,
            lookupVal_convAllFields, herase]
          have hid : lookupVal [("id", v)] k = none := by
            simp [lookupVal,
              beq_eq_false_iff_ne.mpr (fun he : "id" = k => hki he.symm)]
          cases hcase : lookupVal fs k with
          | none => simp [hid]
          | some w => simp

theorem lookupVal_setMap_self : ∀ (fs : Fields) (v : JVal),
    hasKey fs "id" = true →
    lookupVal (fs.map (fun p => if p.1 == "id" then ("id", v) else p)) "id"
      = some v
  | [], v, h => by simp [hasKey] at h
  | (k, w) :: rest, v, h => by
      simp only [List.map_cons]
      by_cases hk : (k == "id") = true
      · rw [if_pos hk]
        simp [lookupVal]
      · rw [if_neg hk]
        simp only [hasKey, eq_false_of_ne_true hk, Bool.false_or] at h
        simp only [lookupVal, eq_false_of_ne_true hk, Bool.false_eq_true,
          if_false]
        exact lookupVal_setMap_self rest v h

theorem lookupVal_setMap_ne : ∀ (fs : Fields) (v : JVal) (k' : String),
    ¬(k' = "id") →
    lookupVal (fs.map (fun p => if p.1 == "id" then ("id", v) else p)) k'
      = lookupVal fs k'
  | [], _, _, _ => rfl
  | (k, w) :: rest, v, k', h => by
      simp only [List.map_cons]
      by_cases hk : (k == "id") = true
      · rw [if_pos hk]
        have hid : ("id" == k') = false :=
          beq_eq_false_iff_ne.mpr (fun he => h he.symm)
        have hk2 : (k == k') = false := by
          rw [eq_of_beq hk]
          exact hid
        simp only [lookupVal, hid, hk2, Bool.false_eq_true, if_false]
        exact lookupVal_setMap_ne rest v k' h
      · rw [if_neg hk]
        simp only [lookupVal]
        by_cases hkk : (k == k') = true
        · simp [hkk]
        · simp only [hkk, Bool.false_eq_true, if_false]
          exact lookupVal_setMap_ne rest v k' h

theorem keys_setMap : ∀ (fs : Fields) (v : JVal),
    (fs.map (fun p => if p.1 == "id" then ("id", v) else p)).map Prod.fst
      = fs.map Prod.fst
  | [], _ => rfl
  | (k, w) :: rest, v => by
      simp only [List.map_cons]
      by_cases hk : (k == "id") = true
      · rw [if_pos hk]
        simp only [List.map_cons]
        rw [keys_setMap rest v, eq_of_beq hk]
      · rw [if_neg hk]
        simp only [List.map_cons]
        rw [keys_setMap rest v]

theorem hasKey_false_of_not_mem_keys : ∀ (fs : Fields) (k : String),
    k ∉ fs.map Prod.fst → hasKey fs k = false
  | [], _, _ => rfl
  | (k', v) :: rest, k, h => by
      simp only [List.map, List.mem_cons, not_or] at h
      simp only [hasKey, beq_eq_false_iff_ne.mpr (fun he : k' = k => h.1 he.symm),
        Bool.false_or]
      exact hasKey_false_of_not_mem_keys rest k h.2

theorem hasKey_eraseKey_self_of_nodup : ∀ (fs : Fields) (k : String),
    (fs.map Prod.fst).Nodup → hasKey (eraseKey fs k) k = false
  | [], _, _ => rfl
  | (k', v) :: rest, k, hnd => by
      have hnd2 : (k' :: rest.map Prod.fst).Nodup := by
        simpa only [List.map_cons] using hnd
      have hnd' := List.nodup_cons.mp hnd2
      by_cases hk : (k' == k) = true
      · simp only [eraseKey, hk, if_true]
        exact hasKey_false_of_not_mem_keys rest k (by
          rw [← eq_of_beq hk]
          exact hnd'.1)
      · simp only [eraseKey, hk, Bool.false_eq_true, if_false, hasKey,
          Bool.false_or]
        exact hasKey_eraseKey_self_of_nodup rest k hnd'.2

theorem embIndexChild_spec : ∀ (fs : Fields) (v : JVal),
    lookupVal fs "_id" = some v → (fs.map Prod.fst).Nodup →
    lookupVal (embIndexChild fs) "id" = some v
    ∧ hasKey (embIndexChild fs) "_id" = false
    ∧ ∀ k, ¬(k = "id") → ¬(k = "_id") →
        lookupVal (embIndexChild fs) k = lookupVal fs k := by
  intro fs v hv hnd
  rw [show embIndexChild fs = eraseKey (setKeyJs fs "id" v) "_id" from by
    simp [embIndexChild, hv]]
  unfold setKeyJs
  by_cases hk : hasKey fs "id" = true
  · rw [if_pos hk]
    refine ⟨?_, ?_, ?_⟩
    · rw [lookupVal_eraseKey_ne _ "id" "_id" (by decide)]
      exact lookupVal_setMap_self fs v hk
    · exact hasKey_eraseKey_self_of_nodup _ "_id" (by
        rw [keys_setMap]
        exact hnd)
    · intro k hki hkui
      rw [lookupVal_eraseKey_ne _ k "_id" hkui]
      exact lookupVal_setMap_ne fs v k hki
  · rw [if_neg hk]
    have hk' : hasKey fs "id" = false := eq_false_of_ne_true hk
    have hhid : hasKey fs "_id" = true := hasKey_of_lookupVal_some fs "_id" v hv
    rw [eraseKey_append_left fs [("id", v)] "_id" hhid]
    refine ⟨?_, ?_, ?_⟩
    · rw [lookupVal_append,
        lookupVal_eq_none_of_hasKey_false _ "id"
          (hasKey_eraseKey_false fs "id" "_id" hk')]
      simp [lookupVal]
    · rw [hasKey_append, hasKey_eraseKey_self_of_nodup fs "_id" hnd]
      simp [hasKey]
    · intro k hki hkui
      rw [lookupVal_append, lookupVal_eraseKey_ne fs k "_id" hkui]
      have hid : lookupVal [("id", v)] k = none := by
        simp [lookupVal,
          beq_eq_false_iff_ne.mpr (fun he : "id" = k => hki he.symm)]
      cases hcase : lookupVal fs k with
      | none => simp [hid]
      | some w => simp

/-- C10 (amended): before serialised instances reach the client, `_id` keys
are renamed to `id` with the following precise scope.  `convertUnderscoreId`
renames `_id` to `id` recursively through every non-`_id` attribute,
including objects inside arrays at any depth — for any well-formed document
(unique keys per object, `_id` values free of nested `_id`) the result
contains no `_id` key anywhere — and every attribute other than `id` and
`_id` keeps its (recursively converted) value.  The embedded index handler
moves `_id` to `id` at the top level of each child it sends, leaving other
attributes untouched.  However the value moved from `_id` is not itself
descended into, and a pre-existing `id` attribute is overwritten, so the
original claim's unqualified "every `_id` at every nesting level, all other
attributes unchanged" fails (`claim_C10_counterexample`). -/
theorem underscore_id_renaming :
    (∀ v : JVal, cleanIds v = true → hasUid (convertUnderscoreId v) = false)
    ∧ (∀ (fs : Fields) (k : String), ¬(k = "id") → ¬(k = "_id") →
        lookupVal (convertFields fs) k = (lookupVal fs k).map convertUnderscoreId)
    ∧ (∀ (fs : Fields) (v : JVal), lookupVal fs "_id" = some v →
        (fs.map Prod.fst).Nodup →
        lookupVal (embIndexChild fs) "id" = some v
        ∧ hasKey (embIndexChild fs) "_id" = false
        ∧ ∀ k, ¬(k = "id") → ¬(k = "_id") →
            lookupVal (embIndexChild fs) k = lookupVal fs k)
    ∧ (∀ (attrib ps : String) (req : Request) (w : World)
          (parentFields : Fields) (cs : List JVal),
        req.resources ps = some (.obj parentFields) →
        lookupVal parentFields attrib = some (.arr cs) →
        (embIndexHandler attrib ps req w).2 = .send (.arr (cs.map embChildOut))) := by
  refine ⟨cleanIds_conv, lookupVal_convertFields, embIndexChild_spec, ?_⟩
  intro attrib ps req w parentFields cs hres hlook
  simp [embIndexHandler, hres, hlook]

/-- C10 witness: a well-formed document with a nested `_id` is fully
converted, and the embedded index child transform moves `_id` to `id`. -/
theorem underscore_id_renaming_witness :
    hasUid (convertUnderscoreId (.obj [("_id", .prim "5"),
        ("a", .obj [("_id", .prim "7")])])) = false
    ∧ lookupVal (embIndexChild [("_id", .prim "5"), ("t", .prim "x")]) "id"
      = some (.prim "5") :=
  ⟨underscore_id_renaming.1 _ (by decide)
  , (underscore_id_renaming.2.2.1 [("_id", .prim "5"), ("t", .prim "x")]
      (.prim "5") (by decide) (by decide)).1⟩

/-- C10 counterexample: on an object with a pre-existing `id` and an `_id` whose
value itself contains `_id`, the conversion leaves the inner `_id` in place
(the moved value is not descended into) and overwrites the original `id`
attribute — refuting "every `_id` key is renamed ... leaving all other
attributes unchanged". -/
theorem claim_C10_counterexample :
    convertUnderscoreId (.obj [("id", .prim "1"),
        ("_id", .obj [("_id", .prim "2")])])
      = .obj [("id", .obj [("_id", .prim "2")])]
    ∧ hasUid (.obj [("id", JVal.obj [("_id", JVal.prim "2")])]) = true := by
  constructor
  · simp [convertUnderscoreId, convertFields, convAllFields, convFieldsSet,
      convChildren, lookupVal, eraseKey, keyBefore, hasKey]
  · decide

/-- C1 witness: the example registry binds exactly the five routes for
`posts` under the default configuration. -/
theorem top_level_routes_exact_witness :
    "posts" ∈ regEx.topLevel
    ∧ (createBindings regEx {} singEx plurEx).filter (pOwn (.top "posts"))
      = [ ⟨.get, "/posts.:format?", .index, .top "posts"⟩
        , ⟨.post, "/posts", .create, .top "posts"⟩
        , ⟨.get, "/posts/:post.:format?", .read, .top "posts"⟩
        , ⟨.put, "/posts/:post", .update, .top "posts"⟩
        , ⟨.delete, "/posts/:post", .destroy, .top "posts"⟩ ] :=
  ⟨by decide
  , top_level_routes_exact regEx {} singEx plurEx "posts" (by decide) (by decide)⟩

end MongooseRest
